import Mathlib

/-!
# Gateway: scheduler, proxy routing and statistics

A shallow embedding of the Go package `gateway` (files `scheduler.go`, `client.go`,
`proxy.go`, `stats.go`, `config.go`) together with the part of the Go standard library
it drives (`container/heap`, `strings.Contains`, `strings.TrimPrefix`, `http.Error`,
`sync/atomic`), followed by the properties of the specification that were checked
against it.

Conventions of the embedding.

* Go maps keyed by strings are total functions into `Option` (absent key = `none`), except
  the route map, which is ranged over and is therefore kept as an association list.
* Pointers to mutable values are replaced by explicit state passing: every operation
  returns its result together with the new state.
* All operations are sequential: one call runs to completion before the next one starts.
* Everything that the program obtains from the outside world (the answer of the
  container daemon, the upstream answer, the measured latency) is a parameter of the call.
-/

set_option autoImplicit false

namespace Gateway

/-! ## `net.SRV` and the selection queue (`scheduler.go`, lines 131-146) -/

/-- Record `net.SRV` of the Go standard library; the three numeric fields are `uint16`
and are only ever stored and compared, never computed with. -/
structure SRV where
  Target : String
  Port : Nat
  Priority : Nat
  Weight : Nat
deriving DecidableEq, Repr

/-- Zero value `net.SRV{}`. -/
def SRV.zero : SRV := ⟨"", 0, 0, 0⟩

/-- Go type `queue []net.SRV`. -/
abbrev queue := List SRV

/-- Method `func (q queue) Len() int`. -/
def queue.Len (q : queue) : Nat := q.length

/-- Method `func (q queue) Less(i, j int) bool`: `q[i].Priority < q[j].Priority`.
Go panics on an index out of range; `container/heap` never passes one, and the model
answers `false` there. -/
def queue.Less (q : queue) (i j : Nat) : Bool :=
  match q[i]?, q[j]? with
  | some a, some b => decide (a.Priority < b.Priority)
  | _, _ => false

/-- Method `func (q queue) Swap(i, j int)`: `q[i], q[j] = q[j], q[i]` (unchanged where Go
would panic on an index out of range). -/
def queue.Swap (q : queue) (i j : Nat) : queue :=
  match q[i]?, q[j]? with
  | some a, some b => (q.set i b).set j a
  | _, _ => q

/-- Method `func (q *queue) Push(x interface{})`: append. -/
def queue.Push (q : queue) (x : SRV) : queue := q ++ [x]

/-- Method `func (q *queue) Pop() interface{}`: removes and returns the last element;
`none` where Go panics (empty slice). -/
def queue.Pop (q : queue) : Option (SRV × queue) :=
  match q.getLast? with
  | some out => some (out, q.dropLast)
  | none => none

/-! ## `container/heap` of the Go standard library -/

/-- Go interface `heap.Interface` (`sort.Interface` plus `Push` and `Pop`), as a record of
the five methods over a carrier `H` with elements `E`. -/
structure heap.Interface (H E : Type) where
  Len : H → Nat
  Less : H → Nat → Nat → Bool
  Swap : H → Nat → Nat → H
  Push : H → E → H
  Pop : H → Option (E × H)

/-- Loop of `heap.up`:
`for { i := (j - 1) / 2; if i == j || !h.Less(j, i) { break }; h.Swap(i, j); j = i }`.
Go's `(0 - 1) / 2` is `0` (division truncates towards zero), as is the truncated
subtraction here. The first argument bounds the number of iterations. -/
def heap.upLoop {H E : Type} (I : heap.Interface H E) : Nat → H → Nat → H
  | 0, h, _ => h
  | fuel + 1, h, j =>
    let i := (j - 1) / 2
    if i == j || !I.Less h j i then h
    else heap.upLoop I fuel (I.Swap h i j) i

/-- Function `heap.up(h, j)`; `j` strictly decreases, so `j + 1` iterations are enough
(`heap.upLoop_fuel`). -/
def heap.up {H E : Type} (I : heap.Interface H E) (h : H) (j : Nat) : H :=
  heap.upLoop I (j + 1) h j

/-- Loop of `heap.down(h, i0, n)`, returning the heap and the final `i`:
`for { j1 := 2*i + 1; if j1 >= n || j1 < 0 { break }; j := j1;`
`if j2 := j1 + 1; j2 < n && h.Less(j2, j1) { j = j2 };`
`if !h.Less(j, i) { break }; h.Swap(i, j); i = j }`.
The test `j1 < 0` only fires after `int` overflow, which needs `i ≥ 2^62`, more than any
slice holds. The first argument bounds the number of iterations. -/
def heap.downLoop {H E : Type} (I : heap.Interface H E) (n : Nat) : Nat → H → Nat → H × Nat
  | 0, h, i => (h, i)
  | fuel + 1, h, i =>
    let j1 := 2 * i + 1
    if j1 ≥ n then (h, i)
    else
      let j := if j1 + 1 < n && I.Less h (j1 + 1) j1 then j1 + 1 else j1
      if !I.Less h j i then (h, i)
      else heap.downLoop I n fuel (I.Swap h i j) j

/-- Function `heap.down(h, i0, n) bool`; `i` strictly increases below `n`, so `n`
iterations are enough (`heap.downLoop_fuel`). -/
def heap.down {H E : Type} (I : heap.Interface H E) (h : H) (i0 n : Nat) : H × Bool :=
  let r := heap.downLoop I n n h i0
  (r.1, decide (r.2 > i0))

/-- Loop of `heap.Init`: `for i := n/2 - 1; i >= 0; i-- { down(h, i, n) }`; the counter
`k` is `i + 1`. -/
def heap.initLoop {H E : Type} (I : heap.Interface H E) (n : Nat) : Nat → H → H
  | 0, h => h
  | k + 1, h => heap.initLoop I n k (heap.down I h k n).1

/-- Function `heap.Init(h)`. -/
def heap.Init {H E : Type} (I : heap.Interface H E) (h : H) : H :=
  let n := I.Len h
  heap.initLoop I n (n / 2) h

/-- Function `heap.Push(h, x)`: `h.Push(x); up(h, h.Len()-1)`. -/
def heap.Push {H E : Type} (I : heap.Interface H E) (h : H) (x : E) : H :=
  let h1 := I.Push h x
  heap.up I h1 (I.Len h1 - 1)

/-- Function `heap.Pop(h)`: `n := h.Len() - 1; h.Swap(0, n); down(h, 0, n); return h.Pop()`.
On an empty heap Go panics in `Swap`; the model then answers `none` through `h.Pop`. -/
def heap.Pop {H E : Type} (I : heap.Interface H E) (h : H) : Option (E × H) :=
  let n := I.Len h - 1
  let h1 := I.Swap h 0 n
  let h2 := (heap.down I h1 0 n).1
  I.Pop h2

/-- The methods of `queue` as a `heap.Interface`. -/
def queue.iface : heap.Interface queue SRV :=
  ⟨queue.Len, queue.Less, queue.Swap, queue.Push, queue.Pop⟩

/-! ## Discovery client (`client.go`) -/

/-- Go struct `ports`, one published port of a container as decoded from the daemon's
JSON. The two port numbers are `float64` in Go; the model keeps whole numbers. -/
structure ports where
  Typ : String
  IP : String
  PrivatePort : Int
  PublicPort : Int
deriving DecidableEq, Repr

/-- One element of the decoded answer `[]struct{ Ports []ports }`. -/
structure Container where
  Ports : List ports
deriving DecidableEq, Repr

/-- What the container daemon answers to one `GET /containers/json` with the given label
filter, after `ioutil.ReadAll` and `json.Unmarshal`: an error of the transport, of the
read or of the decoding, or the decoded containers. It is supplied anew with every
call. -/
abbrev Daemon := List String → Except String (List Container)

/-- Go struct `Client`: the label filters of the configured backends (`nil` = `none`). -/
structure Client where
  tags : String → Option (List String)

/-- Function `NewClient(tags, socketPath)`. -/
def NewClient (tags : String → Option (List String)) : Client := ⟨tags⟩

/-- Body of the inner loop of `GetAddrs`: `if r.PublicPort > 0 { out = append(out, ...) }`,
with `Weight` and `Priority` both `uint16(0)`. The conversion `uint16(r.PublicPort)` is
exact for ports below `65536`. -/
def Client.addPort (out : List SRV) (r : ports) : List SRV :=
  if r.PublicPort > 0 then out ++ [⟨r.IP, (r.PublicPort % 65536).toNat, 0, 0⟩] else out

/-- Method `func (c *Client) GetAddrs(service string) ([]net.SRV, error)`; the error is
`none` for Go's `nil`. -/
def Client.GetAddrs (c : Client) (get : Daemon) (service : String) :
    List SRV × Option String :=
  match c.tags service with
  | none => ([], some "not found")
  | some tags =>
    match get tags with
    | .error err => ([], some err)
    | .ok o => (o.foldl (fun out s => s.Ports.foldl Client.addPort out) [], none)

/-- Function `errors.Wrap(err, message)` of `github.com/pkg/errors`: `nil` stays `nil`,
any other error is prefixed with the message. -/
def errors.Wrap (err : Option String) (message : String) : Option String :=
  match err with
  | none => none
  | some e => some (message ++ ": " ++ e)

/-! ## Scheduler (`scheduler.go`) -/

/-- Go struct `Scheduler` without its mutex. `backends` holds the selection queues,
`services` the full sets. -/
structure Scheduler where
  name : String
  backends : String → Option queue
  services : String → Option (List SRV)
  RelookupInterval : Nat
  CustomLookup : Option (String → List SRV)
  cli : Client

/-- Function `NewScheduler(interval, custom, tags, socketPath)`: two empty maps. The refresh
loop it starts is a sequence of later `lookup` calls. -/
def NewScheduler (interval : Nat) (custom : Option (String → List SRV))
    (tags : String → Option (List String)) : Scheduler :=
  { name := "scheduler"
    backends := fun _ => none
    services := fun _ => none
    RelookupInterval := interval
    CustomLookup := custom
    cli := NewClient tags }

/-- Method `getQueue(service) (q *queue, ok bool)`. -/
def Scheduler.getQueue (s : Scheduler) (service : String) : Option queue × Bool :=
  (s.backends service, (s.backends service).isSome)

/-- Method `getSRVs(service) (backends []net.SRV, ok bool)`: the `nil` slice for an
absent key. -/
def Scheduler.getSRVs (s : Scheduler) (service : String) : List SRV × Bool :=
  ((s.services service).getD [], (s.services service).isSome)

/-- Method `pop(service) net.SRV`: `heap.Pop` on a non-empty queue, else `net.SRV{}`. -/
def Scheduler.pop (s : Scheduler) (service : String) : SRV × Scheduler :=
  match s.backends service with
  | some q =>
    if queue.Len q > 0 then
      match heap.Pop queue.iface q with
      | some (x, q1) => (x, { s with backends := Function.update s.backends service (some q1) })
      | none => (SRV.zero, s)
    else (SRV.zero, s)
  | none => (SRV.zero, s)

/-- Method `requeue(service)`: copies the full set into a fresh queue, `heap.Init`, and
stores it. -/
def Scheduler.requeue (s : Scheduler) (service : String) : Scheduler :=
  let records := (s.getSRVs service).1
  let q : queue := records.foldl (fun q r => q ++ [r]) []
  let ptr := heap.Init queue.iface q
  { s with backends := Function.update s.backends service (some ptr) }

/-- Method `lookup(service) error`: on an error of `GetAddrs` returns it wrapped and
changes nothing; else stores a copy of the addresses as the full set. -/
def Scheduler.lookup (s : Scheduler) (get : Daemon) (service : String) :
    Option String × Scheduler :=
  let r := s.cli.GetAddrs get service
  if r.2.isSome then (errors.Wrap r.2 "GetAddrs", s)
  else
    let records := (List.range r.1.length).map (fun i => r.1.getD i SRV.zero)
    (none, { s with services := Function.update s.services service (some records) })

/-- Method `NextBackend(service) net.SRV`. -/
def Scheduler.NextBackend (s : Scheduler) (get : Daemon) (service : String) :
    SRV × Scheduler :=
  let r := s.getQueue service
  let s1 := if !r.2 then (s.lookup get service).2 else s
  let s2 :=
    if (match r.1 with
        | none => true
        | some q => queue.Len q == 0) then s1.requeue service
    else s1
  s2.pop service

/-- Successive `NextBackend` calls on one service, one daemon answer per call; returns the
endpoints in the order of the calls and the final state. -/
def Scheduler.calls (s : Scheduler) (service : String) : List Daemon → List SRV × Scheduler
  | [] => ([], s)
  | get :: gets =>
    let r := s.NextBackend get service
    let rs := Scheduler.calls r.2 service gets
    (r.1 :: rs.1, rs.2)

/-! ## Statistics (`stats.go`) -/

/-- Go type `intHeap []time.Duration`; a `time.Duration` is an `int64` count of
nanoseconds, and is only stored and compared here. -/
abbrev intHeap := List Int

/-- Method `func (q intHeap) Len() int`. -/
def intHeap.Len (q : intHeap) : Nat := q.length

/-- Method `func (q intHeap) Less(i, j int) bool`: `q[i] < q[j]` (`false` where Go would
panic on an index out of range). -/
def intHeap.Less (q : intHeap) (i j : Nat) : Bool :=
  match q[i]?, q[j]? with
  | some a, some b => decide (a < b)
  | _, _ => false

/-- Method `func (q intHeap) Swap(i, j int)`. -/
def intHeap.Swap (q : intHeap) (i j : Nat) : intHeap :=
  match q[i]?, q[j]? with
  | some a, some b => (q.set i b).set j a
  | _, _ => q

/-- Method `func (q *intHeap) Push(x interface{})`: append. -/
def intHeap.Push (q : intHeap) (x : Int) : intHeap := q ++ [x]

/-- Method `func (q *intHeap) Pop() interface{}`: removes and returns the last element. -/
def intHeap.Pop (q : intHeap) : Option (Int × intHeap) :=
  match q.getLast? with
  | some out => some (out, q.dropLast)
  | none => none

/-- Method `func (h *intHeap) Peek() interface{}`: the element in the last slot of the
slice, `time.Duration(0)` for an empty one. -/
def intHeap.Peek (h : intHeap) : Int :=
  if intHeap.Len h > 0 then
    match h[intHeap.Len h - 1]? with
    | some x => x
    | none => 0
  else 0

/-- The methods of `intHeap` as a `heap.Interface`. -/
def intHeap.iface : heap.Interface intHeap Int :=
  ⟨intHeap.Len, intHeap.Less, intHeap.Swap, intHeap.Push, intHeap.Pop⟩

/-- Two's-complement wrap-around of `int32` arithmetic. -/
def wrap32 (x : Int) : Int := (x + 2 ^ 31) % 2 ^ 32 - 2 ^ 31

/-- Go type `count32 int32`, the atomic counter. -/
abbrev count32 := Int

/-- Method `func (c *count32) inc() int32`: `atomic.AddInt32(c, 1)`, one indivisible step
that returns the new value. -/
def count32.inc (c : count32) : Int × count32 := (wrap32 (c + 1), wrap32 (c + 1))

/-- Method `func (c *count32) get() int32`: `atomic.LoadInt32`. -/
def count32.get (c : count32) : Int := c

/-- Method `func (c *count32) set(v int32)`: `atomic.StoreInt32`. -/
def count32.set (_ : count32) (v : Int) : count32 := v

/-- Go struct `Stats`. The field `p95` is a pointer that nothing ever assigns (`none`). -/
structure Stats where
  p99 : intHeap
  p95 : Option intHeap
  successCount : count32
  errorCount : count32

/-- Function `NewStats()`: `heap.Init` of an empty `intHeap`, counters at zero. -/
def NewStats : Stats :=
  { p99 := heap.Init intHeap.iface [], p95 := none, successCount := 0, errorCount := 0 }

/-- Method `Record(t)`: `heap.Push(s.p99, t)`. -/
def Stats.Record (s : Stats) (t : Int) : Stats :=
  { s with p99 := heap.Push intHeap.iface s.p99 t }

/-- Method `P99()`: `s.p99.Peek()`. -/
def Stats.P99 (s : Stats) : Int := intHeap.Peek s.p99

/-- Method `P95()`: `s.p95.Peek()`; `none` where Go panics on the nil pointer. -/
def Stats.P95 (s : Stats) : Option Int := s.p95.map intHeap.Peek

/-- Method `Count()`: `s.successCount.get() + s.errorCount.get()` in `int32`. -/
def Stats.Count (s : Stats) : Int :=
  wrap32 (count32.get s.successCount + count32.get s.errorCount)

/-- Method `Success()`. -/
def Stats.Success (s : Stats) : Int := count32.get s.successCount

/-- Method `Error()`. -/
def Stats.Error (s : Stats) : Int := count32.get s.errorCount

/-- Method `IncSuccess()`: returns the new count. -/
def Stats.IncSuccess (s : Stats) : Int × Stats :=
  ((count32.inc s.successCount).1, { s with successCount := (count32.inc s.successCount).2 })

/-- Method `IncError()`: returns the new count. -/
def Stats.IncError (s : Stats) : Int × Stats :=
  ((count32.inc s.errorCount).1, { s with errorCount := (count32.inc s.errorCount).2 })

/-- Recording a sequence of durations, first to last. -/
def Stats.records (s : Stats) (ts : List Int) : Stats := ts.foldl Stats.Record s

/-- One atomic increment, as one step of an interleaving of concurrent callers: caller
`k` runs `IncSuccess`, or someone runs `IncError`. -/
inductive Stats.Event where
  | success (caller : Nat)
  | error
deriving DecidableEq, Repr

/-- Effect of one atomic increment. -/
def Stats.event (s : Stats) : Stats.Event → Stats
  | .success _ => s.IncSuccess.2
  | .error => s.IncError.2

/-- Effect of an interleaving: the atomic increments applied in the order in which they
take effect. -/
def Stats.interleave (s : Stats) (evs : List Stats.Event) : Stats := evs.foldl Stats.event s

/-! ## Configuration (`config.go`) -/

/-- Go struct `Route`. -/
structure Route where
  PathPrefix : String
  Backend : String
deriving DecidableEq, Repr

/-- Go struct `Response`, the configured default response. -/
structure Response where
  Body : String
  StatusCode : Int
deriving DecidableEq, Repr

/-! ## Proxy (`proxy.go`) -/

/-- Function `strings.HasPrefix(s, prefix)`. Go compares bytes, the model characters; on
valid UTF-8 the two agree. -/
def strings.HasPrefix (s pre : String) : Bool := pre.data.isPrefixOf s.data

/-- Search loop of `strings.Contains`: does the pattern start at some position of the
text. -/
def strings.containsAt (sub : List Char) : List Char → Bool
  | [] => sub.isPrefixOf []
  | c :: cs => sub.isPrefixOf (c :: cs) || strings.containsAt sub cs

/-- Function `strings.Contains(s, substr)`: `substr` occurs anywhere within `s`. -/
def strings.Contains (s substr : String) : Bool := strings.containsAt substr.data s.data

/-- Function `strings.TrimPrefix(s, prefix)`: `s` without the leading `prefix`, or `s`
itself when it does not start with `prefix`. -/
def strings.TrimPrefix (s pre : String) : String :=
  if strings.HasPrefix s pre then ⟨s.data.drop pre.data.length⟩ else s

/-- What a handler hands to its `http.ResponseWriter` when it runs to its end: the code
given to `WriteHeader` and the bytes written after it. -/
structure http.Reply where
  StatusCode : Int
  Body : String
deriving DecidableEq, Repr

/-- Check `checkWriteHeaderCode` of `net/http`, run by `WriteHeader(code)`: a code below
`100` or above `999` makes `WriteHeader` panic. -/
def http.checkWriteHeaderCode (code : Int) : Bool := decide (100 ≤ code ∧ code ≤ 999)

/-- Function `http.Error(w, error, code)`: `w.WriteHeader(code)` and then
`fmt.Fprintln(w, error)`, which writes the text followed by a line feed. The result is
`none` when `WriteHeader` panics on the code, before anything is written. -/
def http.Error (error : String) (code : Int) : Option http.Reply :=
  if http.checkWriteHeaderCode code then some ⟨code, error ++ "\n"⟩ else none

/-- Go struct `url.URL`, the three fields that `resolve` sets. -/
structure url.URL where
  Scheme : String
  Host : String
  Path : String
deriving DecidableEq, Repr

/-- Method `(*url.URL).String()` for such a URL with nothing to escape; `open` calls it
with an empty path. -/
def url.URL.String (u : url.URL) : String := u.Scheme ++ "://" ++ u.Host ++ u.Path

/-- Go struct `Proxy` without its mutex and logger. `routeMap` maps a service to its path
pattern and is kept as the list of its entries, in the order in which `range` visits
them (Go leaves that order unspecified; nothing below depends on it). `conns` lists the
upstream addresses that have a pooled handle. `Scheduler` is the one that `main` attaches
(`p.Scheduler = s`) before the proxy serves. -/
structure Proxy where
  Scheduler : Gateway.Scheduler
  Stats : Gateway.Stats
  conns : List String
  routeMap : List (String × String)
  defaultStatus : Int
  defaultBody : String

/-- Map assignment `routeMap[k] = v` on the list of entries. -/
def Proxy.assign (m : List (String × String)) (k v : String) : List (String × String) :=
  match m with
  | [] => [(k, v)]
  | (k1, v1) :: rest => if k1 = k then (k, v) :: rest else (k1, v1) :: Proxy.assign rest k v

/-- Function `NewProxy(routes, log)` followed by `p.Scheduler = s` of `main`:
`routeMap[v.Backend] = v.PathPrefix` for every route, default body `"- not found -"`,
default status `400`. -/
def NewProxy (routes : List Route) (s : Scheduler) : Proxy :=
  { Scheduler := s
    Stats := NewStats
    conns := []
    routeMap := routes.foldl (fun m v => Proxy.assign m v.Backend v.PathPrefix) []
    defaultBody := "- not found -"
    defaultStatus := 400 }

/-- Method `SetDefaultResponse(statusCode, body)`. -/
def Proxy.SetDefaultResponse (p : Proxy) (statusCode : Int) (body : String) : Proxy :=
  { p with defaultStatus := statusCode, defaultBody := body }

/-- Loop of `matcherFn` over the entries of the route map: the first entry whose pattern
`strings.Contains` finds in the URI gives the service and `strings.TrimPrefix(uri,
pattern)`. -/
def Proxy.matcherLoop (uri : String) : List (String × String) → String × String
  | [] => ("", "")
  | (s, pattern) :: rest =>
    if strings.Contains uri pattern then (s, strings.TrimPrefix uri pattern)
    else Proxy.matcherLoop uri rest

/-- Method `matcherFn(uri) (string, string)`: service and forwarded path. -/
def Proxy.matcherFn (p : Proxy) (uri : String) : String × String :=
  Proxy.matcherLoop uri p.routeMap

/-- Method `resolve(upstream)`: asks the scheduler for the next backend of the matched
service (also when the service is `""`). Its error result is always `nil` and is left
out, and with it the `log.Fatal` branch of `ServeHTTP`. -/
def Proxy.resolve (p : Proxy) (get : Daemon) (uri : String) : url.URL × String × Proxy :=
  let m := p.matcherFn uri
  let r := p.Scheduler.NextBackend get m.1
  let target := r.1.Target ++ ":" ++ toString r.1.Port
  (⟨"http", target, m.2⟩, m.1, { p with Scheduler := r.2 })

/-- Methods `get` and `open`: the pooled handle of an address, created on first use. -/
def Proxy.open (p : Proxy) (addr : url.URL) : Proxy :=
  if addr.String ∈ p.conns then p else { p with conns := p.conns ++ [addr.String] }

/-- The `ModifyResponse` hook that `ServeHTTP` installs: an upstream status above `399`
counts as an error, one from `200` to `399` as a success. -/
def Proxy.modifyResponse (st : Gateway.Stats) (code : Int) : Gateway.Stats :=
  let st1 := if code > 399 then st.IncError.2 else st
  if code ≥ 200 ∧ code ≤ 399 then st1.IncSuccess.2 else st1

/-- Method `ServeHTTP(w, r)`. `uri` is `r.URL.String()`, `upstream` what the backend
answers when the request is forwarded (`none`: the forward fails, and the reverse proxy
answers `502` without calling the hook), `te` the latency that the deferred
`p.Stats.Record(te)` records. The reply is `none` when the handler panics in
`WriteHeader`: nothing is written, the statements after the panic do not run (in the
unmatched branch `p.Stats.IncError()`), and the deferred `Record` still does. -/
def Proxy.ServeHTTP (p : Proxy) (get : Daemon) (uri : String) (upstream : Option http.Reply)
    (te : Int) : Option http.Reply × Proxy :=
  let r := p.resolve get uri
  let addr := r.1
  let service := r.2.1
  let p1 := r.2.2
  if service ≠ "" ∧ (p1.routeMap.lookup service).isSome then
    let p2 := p1.open { addr with Path := "" }
    match upstream with
    | some resp =>
      (if http.checkWriteHeaderCode resp.StatusCode then some resp else none,
        { p2 with Stats := (Proxy.modifyResponse p2.Stats resp.StatusCode).Record te })
    | none => (some ⟨502, ""⟩, { p2 with Stats := p2.Stats.Record te })
  else
    match http.Error p1.defaultBody p1.defaultStatus with
    | some reply => (some reply, { p1 with Stats := (p1.Stats.IncError.2).Record te })
    | none => (none, { p1 with Stats := p1.Stats.Record te })

/-! ## Traces of scheduler operations -/

/-- One operation on the scheduler, with the daemon answer it would receive: a
`NextBackend` call made for a request, or a `lookup` call made by the refresh loop
`relookupEvery` (or by anyone else). -/
inductive Scheduler.Op where
  | NextBackend (service : String) (get : Daemon)
  | lookup (service : String) (get : Daemon)

/-- State after one operation. -/
def Scheduler.step (s : Scheduler) : Scheduler.Op → Scheduler
  | .NextBackend service get => (s.NextBackend get service).2
  | .lookup service get => (s.lookup get service).2

/-- State after a sequence of operations. -/
def Scheduler.run (s : Scheduler) : List Scheduler.Op → Scheduler
  | [] => s
  | op :: ops => Scheduler.run (s.step op) ops

/-- Length of the selection queue of a service (`0` when it has none). -/
def Scheduler.queueLen (s : Scheduler) (service : String) : Nat :=
  match s.backends service with
  | some q => queue.Len q
  | none => 0

/-- Length of the current full set of a service (`0` when it has none). -/
def Scheduler.fullLen (s : Scheduler) (service : String) : Nat :=
  (s.getSRVs service).1.length

/-- A sequence of operations in which no successful `lookup` stores a full set with fewer
endpoints than the selection queue of that service holds at that moment. -/
def Scheduler.NoShrink (s : Scheduler) : List Scheduler.Op → Prop
  | [] => True
  | .NextBackend service get :: ops =>
    Scheduler.NoShrink (s.step (.NextBackend service get)) ops
  | .lookup service get :: ops =>
    ((s.cli.GetAddrs get service).2 = none →
        s.queueLen service ≤ (s.cli.GetAddrs get service).1.length) ∧
      Scheduler.NoShrink (s.step (.lookup service get)) ops

/-- `NoShrink` can be decided by running the operations. -/
instance Scheduler.decNoShrink :
    (s : Scheduler) → (ops : List Scheduler.Op) → Decidable (s.NoShrink ops)
  | _, [] => isTrue trivial
  | s, .NextBackend service get :: ops =>
    Scheduler.decNoShrink (s.step (.NextBackend service get)) ops
  | s, .lookup service get :: ops =>
    have := Scheduler.decNoShrink (s.step (.lookup service get)) ops
    inferInstanceAs (Decidable
      (((s.cli.GetAddrs get service).2 = none →
          s.queueLen service ≤ (s.cli.GetAddrs get service).1.length) ∧
        Scheduler.NoShrink (s.step (.lookup service get)) ops))

/-! ## Auxiliary definitions used in the proofs -/

/-- The child that `heap.down` compares with node `i`: the right one when it exists and is
smaller than the left one, else the left one. -/
def heap.downChild {H E : Type} (I : heap.Interface H E) (n : Nat) (h : H) (i : Nat) : Nat :=
  if 2 * i + 1 + 1 < n && I.Less h (2 * i + 1 + 1) (2 * i + 1) then 2 * i + 1 + 1
  else 2 * i + 1

/-- Priority stored at index `k` of a queue (`0` outside it). -/
def queue.key (q : queue) (k : Nat) : Nat :=
  match q[k]? with
  | some x => x.Priority
  | none => 0

/-- Heap order of the first `n` slots of a queue, for every parent at index `lo` or above:
the priority of a parent is at most that of its child. -/
def queue.HeapFrom (q : queue) (n lo : Nat) : Prop :=
  ∀ c, 0 < c → c < n → lo ≤ (c - 1) / 2 → queue.key q ((c - 1) / 2) ≤ queue.key q c

/-- The first `k` results of `heap.Pop` on a queue, with the queue that remains; stops
early on an empty queue. -/
def queue.popN : Nat → queue → List SRV × queue
  | 0, q => ([], q)
  | k + 1, q =>
    match heap.Pop queue.iface q with
    | some (x, q1) => (x :: (queue.popN k q1).1, (queue.popN k q1).2)
    | none => ([], q)

/-- The state in which `NextBackend` refills the queue of a service whose queue is missing
or empty: the state after the on-demand lookup when the service has no queue yet, the
state itself otherwise. -/
def Scheduler.refillState (s : Scheduler) (get : Daemon) (service : String) : Scheduler :=
  if (s.backends service).isSome then s else (s.lookup get service).2

/-- Is this increment one of `IncSuccess`. -/
def Stats.Event.isSuccess : Stats.Event → Bool
  | .success _ => true
  | .error => false

/-! ## Concrete inputs at which the theorems are instantiated -/

/-- Label filters of a configuration with the single backend `svcA`. -/
def Example.tags : String → Option (List String) :=
  fun service => if service = "svcA" then some ["app=a"] else none

/-- Three endpoints as `GetAddrs` builds them (priority and weight `0`). -/
def Example.a : SRV := ⟨"10.0.0.1", 8001, 0, 0⟩

/-- Second endpoint. -/
def Example.b : SRV := ⟨"10.0.0.2", 8002, 0, 0⟩

/-- Third endpoint. -/
def Example.c : SRV := ⟨"10.0.0.3", 8003, 0, 0⟩

/-- A daemon that reports two containers publishing the three endpoints above, and one
port that is not published. -/
def Example.daemon3 : Daemon := fun _ =>
  .ok [⟨[⟨"tcp", "10.0.0.1", 80, 8001⟩, ⟨"tcp", "10.0.0.9", 80, 0⟩]⟩,
       ⟨[⟨"tcp", "10.0.0.2", 80, 8002⟩, ⟨"tcp", "10.0.0.3", 80, 8003⟩]⟩]

/-- A fourth endpoint. -/
def Example.d : SRV := ⟨"10.0.0.4", 8004, 0, 0⟩

/-- A daemon that reports one container publishing only the fourth endpoint. -/
def Example.daemon1 : Daemon := fun _ => .ok [⟨[⟨"tcp", "10.0.0.4", 80, 8004⟩]⟩]

/-- A daemon that reports no container at all. -/
def Example.daemon0 : Daemon := fun _ => .ok []

/-- A daemon that cannot be reached. -/
def Example.daemonDown : Daemon := fun _ => .error "dial unix: connection refused"

/-- The scheduler of that configuration right after `NewScheduler`. -/
def Example.sched : Scheduler := NewScheduler 1 none Example.tags

/-- A scheduler state whose full set for `svcA` carries three different priorities. -/
def Example.schedMixed : Scheduler :=
  { Example.sched with
    services := fun service =>
      if service = "svcA" then
        some [⟨"10.0.0.1", 8001, 3, 0⟩, ⟨"10.0.0.2", 8002, 1, 0⟩, ⟨"10.0.0.3", 8003, 2, 0⟩]
      else none }

/-- Samples `2, 3, ..., 100` followed by `1`: the samples `1..100` in one of their orders. -/
def Example.samples : List Int := (List.range 99).map (fun i => (i : Int) + 2) ++ [1]

/-- A proxy with the single route `/api` to `svcA`, as `NewProxy` and `main` set it up. -/
def Example.proxy : Proxy := NewProxy [⟨"/api", "svcA"⟩] Example.sched

/-- The same proxy with its error counter at `2^31 - 1`, the largest `int32`. -/
def Example.proxyFull : Proxy :=
  { Example.proxy with Stats := { NewStats with errorCount := 2147483647 } }

/-- The same proxy after `SetDefaultResponse(1000, "x")`, as a configuration with
`status_code: 1000` makes `main` call it. -/
def Example.proxyCode1000 : Proxy := Example.proxy.SetDefaultResponse 1000 "x"

/-! ## The loops of `container/heap` stop within their bounds -/

theorem heap.downChild_ge {H E : Type} (I : heap.Interface H E) (n : Nat) (h : H) (i : Nat) :
    2 * i + 1 ≤ heap.downChild I n h i := by
  unfold heap.downChild
  split <;> omega

theorem heap.downLoop_succ {H E : Type} (I : heap.Interface H E) (n fuel : Nat) (h : H)
    (i : Nat) :
    heap.downLoop I n (fuel + 1) h i =
      if 2 * i + 1 ≥ n then (h, i)
      else if (!I.Less h (heap.downChild I n h i) i) = true then (h, i)
      else heap.downLoop I n fuel (I.Swap h i (heap.downChild I n h i))
        (heap.downChild I n h i) := rfl

theorem heap.upLoop_succ {H E : Type} (I : heap.Interface H E) (fuel : Nat) (h : H)
    (j : Nat) :
    heap.upLoop I (fuel + 1) h j =
      if ((j - 1) / 2 == j || !I.Less h j ((j - 1) / 2)) = true then h
      else heap.upLoop I fuel (I.Swap h ((j - 1) / 2) j) ((j - 1) / 2) := rfl

theorem heap.downLoop_fuel {H E : Type} (I : heap.Interface H E) (n : Nat) :
    ∀ (fuel : Nat) (h : H) (i : Nat), n ≤ i + fuel →
      heap.downLoop I n (fuel + 1) h i = heap.downLoop I n fuel h i := by
  intro fuel
  induction fuel with
  | zero =>
    intro h i hn
    have : 2 * i + 1 ≥ n := by omega
    simp [heap.downLoop, this]
  | succ k ih =>
    intro h i hn
    rw [heap.downLoop_succ I n (k + 1) h i, heap.downLoop_succ I n k h i]
    by_cases h1 : 2 * i + 1 ≥ n
    · simp only [h1, if_true]
    · simp only [h1, if_false]
      have hj := heap.downChild_ge I n h i
      rw [ih _ _ (by omega)]

theorem heap.upLoop_fuel {H E : Type} (I : heap.Interface H E) :
    ∀ (fuel : Nat) (h : H) (j : Nat), j < fuel →
      heap.upLoop I (fuel + 1) h j = heap.upLoop I fuel h j := by
  intro fuel
  induction fuel with
  | zero => intro h j hj; omega
  | succ k ih =>
    intro h j hj
    rw [heap.upLoop_succ I (k + 1) h j, heap.upLoop_succ I k h j]
    split
    · rfl
    · rename_i hc
      apply ih
      simp at hc
      omega

/-- The bound of `heap.down` is never the reason why its loop stops: more iterations give
the same result. -/
theorem heap.down_fuel {H E : Type} (I : heap.Interface H E) (n : Nat) (h : H) (i : Nat) :
    ∀ k, heap.downLoop I n (n + k) h i = heap.downLoop I n n h i := by
  intro k
  induction k with
  | zero => rfl
  | succ k ih => rw [← Nat.add_assoc, heap.downLoop_fuel I n (n + k) h i (by omega), ih]

/-- The bound of `heap.up` is never the reason why its loop stops. -/
theorem heap.up_fuel {H E : Type} (I : heap.Interface H E) (h : H) (j : Nat) :
    ∀ k, heap.upLoop I (j + 1 + k) h j = heap.upLoop I (j + 1) h j := by
  intro k
  induction k with
  | zero => rfl
  | succ k ih => rw [← Nat.add_assoc, heap.upLoop_fuel I (j + 1 + k) h j (by omega), ih]

/-! ## The methods of `queue` -/

theorem queue.Less_eq (q : queue) (i j : Nat) (hi : i < q.length) (hj : j < q.length) :
    queue.Less q i j = decide (queue.key q i < queue.key q j) := by
  simp [queue.Less, queue.key, List.getElem?_eq_getElem hi, List.getElem?_eq_getElem hj]

theorem queue.length_Swap (q : queue) (i j : Nat) : (queue.Swap q i j).length = q.length := by
  unfold queue.Swap
  split <;> simp

theorem queue.getElem?_Swap (q : queue) (i j k : Nat) (hi : i < q.length)
    (hj : j < q.length) :
    (queue.Swap q i j)[k]? = if k = j then q[i]? else if k = i then q[j]? else q[k]? := by
  simp only [queue.Swap, List.getElem?_eq_getElem hi, List.getElem?_eq_getElem hj]
  simp only [List.getElem?_set, List.length_set]
  by_cases h1 : j = k
  · subst h1; simp [hj]
  · by_cases h2 : i = k
    · subst h2; simp [h1, hi, Ne.symm h1]
    · simp [h1, h2, Ne.symm h1, Ne.symm h2]

theorem queue.key_Swap (q : queue) (i j k : Nat) (hi : i < q.length) (hj : j < q.length) :
    queue.key (queue.Swap q i j) k
      = if k = j then queue.key q i else if k = i then queue.key q j else queue.key q k := by
  unfold queue.key
  rw [queue.getElem?_Swap q i j k hi hj]
  split_ifs <;> rfl

theorem List.count_set_add {α : Type} [DecidableEq α] (l : List α) (i : Nat) (a x : α)
    (h : i < l.length) :
    (l.set i a).count x + (if l[i] = x then 1 else 0)
      = l.count x + (if a = x then 1 else 0) := by
  rw [List.count_set a x l i h]
  have h1 : (if l[i] = x then 1 else 0) ≤ l.count x := by
    split
    · rename_i e
      rw [← e]
      exact List.count_pos_iff.mpr (List.getElem_mem _)
    · omega
  simp only [beq_iff_eq]
  omega

theorem queue.Swap_perm (q : queue) (i j : Nat) : (queue.Swap q i j).Perm q := by
  unfold queue.Swap
  split
  · rename_i a b ha hb
    rw [List.getElem?_eq_some] at ha hb
    obtain ⟨hi, ha⟩ := ha
    obtain ⟨hj, hb⟩ := hb
    rw [List.perm_iff_count]
    intro x
    have e1 := List.count_set_add (q.set i b) j a x (by simpa using hj)
    have e2 := List.count_set_add q i b x hi
    rw [List.getElem_set] at e1
    by_cases hij : i = j
    · subst hij
      simp only [if_true] at e1
      rw [ha] at e2
      have : a = b := by rw [← ha, ← hb]
      subst this
      omega
    · simp only [hij, if_false] at e1
      rw [hb] at e1
      rw [ha] at e2
      omega
  · exact List.Perm.refl _

theorem queue.Pop_eq (q : queue) (x : SRV) (h : q[q.length - 1]? = some x) :
    queue.Pop q = some (x, q.dropLast) := by
  unfold queue.Pop
  rw [List.getLast?_eq_getElem?, h]

theorem queue.key_of_getElem? (q : queue) (k : Nat) (y : SRV) (h : q[k]? = some y) :
    queue.key q k = y.Priority := by
  unfold queue.key
  rw [h]

/-! ## `heap.down` on a queue: frame and heap order -/

theorem queue.downChild_spec (q : queue) (n i : Nat) (hn : n ≤ q.length)
    (hi : 2 * i + 1 < n) :
    heap.downChild queue.iface n q i < n ∧
      (heap.downChild queue.iface n q i = 2 * i + 1 ∨
        heap.downChild queue.iface n q i = 2 * i + 1 + 1) ∧
      queue.key q (heap.downChild queue.iface n q i) ≤ queue.key q (2 * i + 1) ∧
      (2 * i + 1 + 1 < n →
        queue.key q (heap.downChild queue.iface n q i) ≤ queue.key q (2 * i + 1 + 1)) := by
  by_cases h2 : 2 * i + 1 + 1 < n
  · have e : queue.iface.Less q (2 * i + 1 + 1) (2 * i + 1)
        = decide (queue.key q (2 * i + 1 + 1) < queue.key q (2 * i + 1)) :=
      queue.Less_eq q _ _ (by omega) (by omega)
    by_cases h3 : queue.key q (2 * i + 1 + 1) < queue.key q (2 * i + 1)
    · have hd : heap.downChild queue.iface n q i = 2 * i + 1 + 1 := by
        unfold heap.downChild
        rw [e]
        simp [h2, h3]
      rw [hd]
      exact ⟨h2, Or.inr rfl, by omega, fun _ => le_refl _⟩
    · have hd : heap.downChild queue.iface n q i = 2 * i + 1 := by
        unfold heap.downChild
        rw [e]
        simp [h3]
      rw [hd]
      exact ⟨hi, Or.inl rfl, le_refl _, fun _ => by omega⟩
  · have hd : heap.downChild queue.iface n q i = 2 * i + 1 := by
      unfold heap.downChild
      simp [h2]
    rw [hd]
    exact ⟨hi, Or.inl rfl, le_refl _, fun h => absurd h h2⟩

theorem queue.downLoop_frame (n : Nat) :
    ∀ (fuel : Nat) (q : queue) (i : Nat), n ≤ q.length →
      (heap.downLoop queue.iface n fuel q i).1.length = q.length ∧
      (heap.downLoop queue.iface n fuel q i).1.Perm q ∧
      ∀ k, n ≤ k → (heap.downLoop queue.iface n fuel q i).1[k]? = q[k]? := by
  intro fuel
  induction fuel with
  | zero => intro q i _; exact ⟨rfl, List.Perm.refl _, fun _ _ => rfl⟩
  | succ f ih =>
    intro q i hn
    rw [heap.downLoop_succ]
    by_cases h1 : 2 * i + 1 ≥ n
    · rw [if_pos h1]; exact ⟨rfl, List.Perm.refl _, fun _ _ => rfl⟩
    · rw [if_neg h1]
      split
      · exact ⟨rfl, List.Perm.refl _, fun _ _ => rfl⟩
      · obtain ⟨hj, hjc, -, -⟩ := queue.downChild_spec q n i hn (by omega)
        have hl : (queue.Swap q i (heap.downChild queue.iface n q i)).length = q.length :=
          queue.length_Swap _ _ _
        obtain ⟨a, b, c⟩ := ih (queue.Swap q i (heap.downChild queue.iface n q i))
          (heap.downChild queue.iface n q i) (by rw [hl]; exact hn)
        refine ⟨a.trans hl, b.trans (queue.Swap_perm _ _ _), fun k hk => ?_⟩
        refine (c k hk).trans ?_
        rw [queue.getElem?_Swap q i _ k (by omega) (by omega)]
        have : k ≠ heap.downChild queue.iface n q i := by omega
        have : k ≠ i := by omega
        simp [*]

theorem queue.downLoop_heap (n lo : Nat) :
    ∀ (fuel : Nat) (q : queue) (i : Nat), n ≤ q.length → n ≤ i + fuel →
      (∀ c, 0 < c → c < n → lo ≤ (c - 1) / 2 → (c - 1) / 2 ≠ i →
        queue.key q ((c - 1) / 2) ≤ queue.key q c) →
      (∀ c, 0 < c → c < n → (c - 1) / 2 = i → 0 < i → lo ≤ (i - 1) / 2 →
        queue.key q ((i - 1) / 2) ≤ queue.key q c) →
      queue.HeapFrom (heap.downLoop queue.iface n fuel q i).1 n lo := by
  intro fuel
  induction fuel with
  | zero =>
    intro q i _ hf hA _ c hc0 hcn hlo
    exact hA c hc0 hcn hlo (by omega)
  | succ f ih =>
    intro q i hn hf hA hB
    rw [heap.downLoop_succ]
    by_cases h1 : 2 * i + 1 ≥ n
    · simp only [h1, if_true]
      intro c hc0 hcn hlo
      exact hA c hc0 hcn hlo (by omega)
    · simp only [h1, if_false]
      obtain ⟨hj, hjc, hjl, hjr⟩ := queue.downChild_spec q n i hn (by omega)
      have e : queue.iface.Less q (heap.downChild queue.iface n q i) i
          = decide (queue.key q (heap.downChild queue.iface n q i) < queue.key q i) :=
        queue.Less_eq q _ _ (by omega) (by omega)
      rw [e]
      generalize heap.downChild queue.iface n q i = j at hj hjc hjl hjr
      by_cases h2 : queue.key q j < queue.key q i
      · simp only [h2, decide_True, Bool.not_true, if_false]
        have hl : (queue.Swap q i j).length = q.length := queue.length_Swap _ _ _
        have hk : ∀ k, queue.key (queue.Swap q i j) k
            = if k = j then queue.key q i else if k = i then queue.key q j
              else queue.key q k :=
          fun k => queue.key_Swap q i j k (by omega) (by omega)
        apply ih (queue.Swap q i j) j (by rw [hl]; exact hn) (by omega)
        · intro c hc0 hcn hlo hne
          rw [hk, hk]
          by_cases hp : (c - 1) / 2 = i
          · have hcc : c = 2 * i + 1 ∨ c = 2 * i + 1 + 1 := by omega
            have hij : i ≠ j := by omega
            simp only [hp, hij, if_false, if_true]
            by_cases hcj : c = j
            · simp only [hcj, if_true]; omega
            · have hci : c ≠ i := by omega
              simp only [hcj, hci, if_false]
              rcases hcc with hcc | hcc
              · subst hcc; exact hjl
              · subst hcc; exact hjr hcn
          · have hcj : c ≠ j := by intro h; subst h; omega
            simp only [hne, hp, hcj, if_false]
            by_cases hci : c = i
            · subst hci
              simp only [if_true]
              have := hB j (by omega) hj (by omega) hc0 hlo
              exact this
            · simp only [hci, if_false]
              exact hA c hc0 hcn hlo hp
        · intro c hc0 hcn hpc hj0 hlo
          have hpj : (j - 1) / 2 = i := by omega
          rw [hk, hk]
          have hcj : c ≠ j := by omega
          have hci : c ≠ i := by omega
          have hij : i ≠ j := by omega
          simp only [hpj, hcj, hci, hij, if_false, if_true, eq_self_iff_true]
          have := hA c hc0 hcn (by omega) (by omega)
          rw [hpc] at this
          exact this
      · simp only [h2, decide_False, Bool.not_false, if_true]
        intro c hc0 hcn hlo
        by_cases hp : (c - 1) / 2 = i
        · have hcc : c = 2 * i + 1 ∨ c = 2 * i + 1 + 1 := by omega
          rw [hp]
          rcases hcc with hcc | hcc
          · subst hcc; omega
          · subst hcc; have := hjr hcn; omega
        · exact hA c hc0 hcn hlo hp

/-! ## `heap.Init` and `heap.Pop` on a queue -/

theorem queue.initLoop_spec (n : Nat) :
    ∀ (k : Nat) (q : queue), n ≤ q.length → queue.HeapFrom q n k →
      (heap.initLoop queue.iface n k q).length = q.length ∧
      (heap.initLoop queue.iface n k q).Perm q ∧
      queue.HeapFrom (heap.initLoop queue.iface n k q) n 0 := by
  intro k
  induction k with
  | zero => intro q _ h; exact ⟨rfl, List.Perm.refl _, h⟩
  | succ k ih =>
    intro q hn h
    obtain ⟨a, b, -⟩ := queue.downLoop_frame n n q k hn
    have c : queue.HeapFrom (heap.downLoop queue.iface n n q k).1 n k := by
      apply queue.downLoop_heap n k n q k hn (by omega)
      · intro c hc0 hcn hlo hne
        exact h c hc0 hcn (by omega)
      · intro c _ _ _ h0 hlo
        omega
    obtain ⟨a', b', c'⟩ := ih (heap.downLoop queue.iface n n q k).1 (by rw [a]; exact hn) c
    exact ⟨a'.trans a, b'.trans b, c'⟩

theorem queue.Init_spec (q : queue) :
    (heap.Init queue.iface q).length = q.length ∧ (heap.Init queue.iface q).Perm q ∧
      queue.HeapFrom (heap.Init queue.iface q) q.length 0 := by
  apply queue.initLoop_spec q.length (q.length / 2) q (le_refl _)
  intro c hc0 hcn hlo
  omega

theorem queue.Init_heap (q : queue) :
    queue.HeapFrom (heap.Init queue.iface q) (heap.Init queue.iface q).length 0 := by
  rw [(queue.Init_spec q).1]
  exact (queue.Init_spec q).2.2

theorem queue.HeapFrom_root (q : queue) (n : Nat) (h : queue.HeapFrom q n 0) :
    ∀ k, k < n → queue.key q 0 ≤ queue.key q k := by
  intro k
  induction k using Nat.strong_induction_on with
  | _ k ih =>
    intro hk
    by_cases h0 : k = 0
    · subst h0; exact le_refl _
    · have h1 := ih ((k - 1) / 2) (by omega) (by omega)
      have h2 := h k (by omega) hk (Nat.zero_le _)
      omega

/-- Shape of `heap.Pop` on a queue of `m + 1` elements: the old root is returned and the
rest is what `heap.down` leaves of the first `m` slots. -/
theorem queue.heapPop_eq (q : queue) (m : Nat) (hm : q.length = m + 1) :
    ∃ x, q[0]? = some x ∧
      heap.Pop queue.iface q
        = some (x, (heap.downLoop queue.iface m m (queue.Swap q 0 m) 0).1.dropLast) ∧
      (heap.downLoop queue.iface m m (queue.Swap q 0 m) 0).1.length = m + 1 ∧
      (x :: (heap.downLoop queue.iface m m (queue.Swap q 0 m) 0).1.dropLast).Perm q := by
  obtain ⟨x, hx⟩ : ∃ x, q[0]? = some x :=
    ⟨q[0], List.getElem?_eq_getElem (by omega)⟩
  have hl1 : (queue.Swap q 0 m).length = q.length := queue.length_Swap _ _ _
  have hP : heap.Pop queue.iface q
      = queue.Pop (heap.downLoop queue.iface m m (queue.Swap q 0 m) 0).1 := by
    show queue.Pop (heap.downLoop queue.iface (q.length - 1) (q.length - 1)
      (queue.Swap q 0 (q.length - 1)) 0).1 = _
    have e : q.length - 1 = m := by omega
    rw [e]
  rw [hP]
  obtain ⟨a, b, c⟩ := queue.downLoop_frame m m (queue.Swap q 0 m) 0 (by omega)
  generalize (heap.downLoop queue.iface m m (queue.Swap q 0 m) 0).1 = r at a b c ⊢
  have hlast : r[m]? = some x := by
    rw [c m (le_refl _), queue.getElem?_Swap q 0 m m (by omega) (by omega)]
    simp [hx]
  have hrl : r.length - 1 = m := by omega
  have hgl : r.getLast? = some x := by
    rw [List.getLast?_eq_getElem?, hrl, hlast]
  refine ⟨x, hx, ?_, by omega, ?_⟩
  · apply queue.Pop_eq
    rw [hrl, hlast]
  · have e := List.dropLast_append_getLast? x hgl
    have p1 : (x :: r.dropLast).Perm (r.dropLast ++ [x]) :=
      (List.perm_append_singleton _ _).symm
    rw [e] at p1
    exact p1.trans (b.trans (queue.Swap_perm _ _ _))

/-- `heap.Pop` on a non-empty queue: it returns the element at the root, and that element
together with what remains is a permutation of the queue. -/
theorem queue.heapPop_frame (q : queue) (hq : q ≠ []) :
    ∃ x q1, heap.Pop queue.iface q = some (x, q1) ∧ q[0]? = some x ∧
      q1.length + 1 = q.length ∧ (x :: q1).Perm q := by
  obtain ⟨m, hm⟩ : ∃ m, q.length = m + 1 :=
    ⟨q.length - 1, by have := List.length_pos.mpr hq; omega⟩
  obtain ⟨x, hx, hP, hl, hp⟩ := queue.heapPop_eq q m hm
  refine ⟨x, _, hP, hx, ?_, hp⟩
  rw [List.length_dropLast, hl, hm]
  rfl

theorem queue.heapPop_nil : heap.Pop queue.iface [] = none := rfl

/-- `heap.Pop` on a heap-ordered queue returns an element of least priority value and
leaves a heap-ordered queue. -/
theorem queue.heapPop_heap (q : queue) (x : SRV) (q1 : queue)
    (hP : heap.Pop queue.iface q = some (x, q1)) (h : queue.HeapFrom q q.length 0) :
    queue.HeapFrom q1 q1.length 0 ∧ ∀ y ∈ q, x.Priority ≤ y.Priority := by
  have hq : q ≠ [] := by
    intro h0
    rw [h0, queue.heapPop_nil] at hP
    exact Option.noConfusion hP
  obtain ⟨m, hm⟩ : ∃ m, q.length = m + 1 :=
    ⟨q.length - 1, by have := List.length_pos.mpr hq; omega⟩
  obtain ⟨x', hx, hP', hl, -⟩ := queue.heapPop_eq q m hm
  rw [hP'] at hP
  obtain ⟨rfl, rfl⟩ := Prod.mk.inj (Option.some.inj hP)
  constructor
  · have hh : queue.HeapFrom (heap.downLoop queue.iface m m (queue.Swap q 0 m) 0).1 m 0 := by
      apply queue.downLoop_heap m 0 m (queue.Swap q 0 m) 0
        (by rw [queue.length_Swap]; omega) (by omega)
      · intro c hc0 hcn _ hne
        rw [queue.key_Swap q 0 m _ (by omega) (by omega),
          queue.key_Swap q 0 m _ (by omega) (by omega)]
        have h1 : (c - 1) / 2 ≠ m := by omega
        have h2 : c ≠ m := by omega
        have h3 : c ≠ 0 := by omega
        simp only [h1, h2, h3, hne, if_false]
        exact h c hc0 (by omega) (Nat.zero_le _)
      · intro c _ _ _ h0
        omega
    rw [List.length_dropLast, hl, Nat.add_sub_cancel]
    intro c hc0 hcn hlo
    have e : ∀ k, k < m →
        queue.key (heap.downLoop queue.iface m m (queue.Swap q 0 m) 0).1.dropLast k
          = queue.key (heap.downLoop queue.iface m m (queue.Swap q 0 m) 0).1 k := by
      intro k hk
      unfold queue.key
      rw [List.getElem?_dropLast, hl, Nat.add_sub_cancel, if_pos hk]
    rw [e _ (by omega), e _ hcn]
    exact hh c hc0 hcn hlo
  · intro y hy
    obtain ⟨k, hk, hky⟩ := List.getElem_of_mem hy
    have h1 := queue.HeapFrom_root q q.length h k hk
    rw [queue.key_of_getElem? q 0 x' hx,
      queue.key_of_getElem? q k y (by rw [List.getElem?_eq_getElem hk, hky])] at h1
    exact h1

/-! ## Draining a queue -/

theorem queue.popN_zero (q : queue) : queue.popN 0 q = ([], q) := rfl

theorem queue.popN_succ (k : Nat) (q : queue) (x : SRV) (q1 : queue)
    (h : heap.Pop queue.iface q = some (x, q1)) :
    queue.popN (k + 1) q = (x :: (queue.popN k q1).1, (queue.popN k q1).2) := by
  rw [queue.popN, h]

theorem queue.popN_length :
    ∀ (k : Nat) (q : queue), k ≤ q.length →
      (queue.popN k q).1.length = k ∧ (queue.popN k q).2.length + k = q.length := by
  intro k
  induction k with
  | zero => intro q _; exact ⟨rfl, rfl⟩
  | succ k ih =>
    intro q hk
    have hq : q ≠ [] := by intro h; rw [h] at hk; simp at hk
    obtain ⟨x, q1, hP, -, hl, -⟩ := queue.heapPop_frame q hq
    rw [queue.popN_succ k q x q1 hP]
    obtain ⟨a, b⟩ := ih q1 (by omega)
    exact ⟨by simp [a], by simp only; omega⟩

theorem queue.popN_perm :
    ∀ (k : Nat) (q : queue), k ≤ q.length →
      ((queue.popN k q).1 ++ (queue.popN k q).2).Perm q := by
  intro k
  induction k with
  | zero => intro q _; exact List.Perm.refl _
  | succ k ih =>
    intro q hk
    have hq : q ≠ [] := by intro h; rw [h] at hk; simp at hk
    obtain ⟨x, q1, hP, -, hl, hp⟩ := queue.heapPop_frame q hq
    rw [queue.popN_succ k q x q1 hP]
    exact ((ih q1 (by omega)).cons x).trans hp

/-- Draining a whole queue returns a permutation of it and leaves it empty. -/
theorem queue.popN_all (q : queue) :
    (queue.popN q.length q).1.Perm q ∧ (queue.popN q.length q).2 = [] := by
  obtain ⟨-, b⟩ := queue.popN_length q.length q (le_refl _)
  have h0 : (queue.popN q.length q).2 = [] := List.length_eq_zero.mp (by omega)
  have p := queue.popN_perm q.length q (le_refl _)
  rw [h0, List.append_nil] at p
  exact ⟨p, h0⟩

theorem queue.popN_mem :
    ∀ (k : Nat) (q : queue) (y : SRV), y ∈ (queue.popN k q).1 → y ∈ q := by
  intro k
  induction k with
  | zero => intro q y h; simp [queue.popN] at h
  | succ k ih =>
    intro q y h
    by_cases hq : q = []
    · subst hq
      simp [queue.popN, queue.heapPop_nil] at h
    · obtain ⟨x, q1, hP, -, -, hp⟩ := queue.heapPop_frame q hq
      rw [queue.popN_succ k q x q1 hP] at h
      apply hp.subset
      rcases List.mem_cons.mp h with h | h
      · rw [h]; exact List.mem_cons_self _ _
      · exact List.mem_cons_of_mem _ (ih q1 y h)

/-- Successive pops from a heap-ordered queue come out in non-decreasing priority. -/
theorem queue.popN_sorted :
    ∀ (k : Nat) (q : queue), queue.HeapFrom q q.length 0 →
      List.Pairwise (fun a b : SRV => a.Priority ≤ b.Priority) (queue.popN k q).1 := by
  intro k
  induction k with
  | zero => intro q _; exact List.Pairwise.nil
  | succ k ih =>
    intro q h
    by_cases hq : q = []
    · subst hq
      simp [queue.popN, queue.heapPop_nil]
    · obtain ⟨x, q1, hP, -, -, hp⟩ := queue.heapPop_frame q hq
      obtain ⟨h1, hmin⟩ := queue.heapPop_heap q x q1 hP h
      rw [queue.popN_succ k q x q1 hP]
      apply List.Pairwise.cons
      · intro y hy
        exact hmin y (hp.subset (List.mem_cons_of_mem _ (queue.popN_mem k q1 y hy)))
      · exact ih q1 h1

/-! ## Queues whose priorities are all equal -/

theorem queue.Less_false_of_equal (q : queue)
    (heq : ∀ a ∈ q, ∀ b ∈ q, a.Priority = b.Priority) (i j : Nat) :
    queue.Less q i j = false := by
  unfold queue.Less
  split
  · rename_i a b ha hb
    have h := heq a (List.getElem?_mem ha) b (List.getElem?_mem hb)
    simp [h]
  · rfl

theorem queue.downLoop_of_equal (q : queue)
    (heq : ∀ a ∈ q, ∀ b ∈ q, a.Priority = b.Priority) (n fuel i : Nat) :
    heap.downLoop queue.iface n fuel q i = (q, i) := by
  cases fuel with
  | zero => rfl
  | succ f =>
    rw [heap.downLoop_succ]
    split
    · rfl
    · have : queue.iface.Less q (heap.downChild queue.iface n q i) i = false :=
        queue.Less_false_of_equal q heq _ _
      rw [this]
      rfl

theorem queue.initLoop_of_equal (q : queue)
    (heq : ∀ a ∈ q, ∀ b ∈ q, a.Priority = b.Priority) (n : Nat) :
    ∀ k, heap.initLoop queue.iface n k q = q := by
  intro k
  induction k with
  | zero => rfl
  | succ k ih =>
    rw [heap.initLoop]
    have : (heap.down queue.iface q k n).1 = q := by
      show (heap.downLoop queue.iface n n q k).1 = q
      rw [queue.downLoop_of_equal q heq]
    rw [this, ih]

/-- With all priorities equal `heap.Init` moves nothing. -/
theorem queue.Init_of_equal (q : queue)
    (heq : ∀ a ∈ q, ∀ b ∈ q, a.Priority = b.Priority) : heap.Init queue.iface q = q :=
  queue.initLoop_of_equal q heq _ _

theorem queue.heapPop_of_equal_single (x : SRV) :
    heap.Pop queue.iface [x] = some (x, []) := rfl

/-- With all priorities equal `heap.Pop` returns the first element and moves the last
one into its place. -/
theorem queue.heapPop_of_equal (x z : SRV) (ys : List SRV)
    (heq : ∀ a ∈ x :: (ys ++ [z]), ∀ b ∈ x :: (ys ++ [z]), a.Priority = b.Priority) :
    heap.Pop queue.iface (x :: (ys ++ [z])) = some (x, z :: ys) := by
  have hs : queue.Swap (x :: (ys ++ [z])) 0 (ys.length + 1) = z :: (ys ++ [x]) := by
    unfold queue.Swap
    simp
  have heq' : ∀ a ∈ z :: (ys ++ [x]), ∀ b ∈ z :: (ys ++ [x]), a.Priority = b.Priority := by
    intro a ha b hb
    apply heq
    · simp at ha ⊢; tauto
    · simp at hb ⊢; tauto
  show queue.Pop (heap.downLoop queue.iface ((x :: (ys ++ [z])).length - 1)
      ((x :: (ys ++ [z])).length - 1)
      (queue.Swap (x :: (ys ++ [z])) 0 ((x :: (ys ++ [z])).length - 1)) 0).1 = _
  have e : (x :: (ys ++ [z])).length - 1 = ys.length + 1 := by simp
  rw [e, hs, queue.downLoop_of_equal _ heq']
  have hgl : (z :: (ys ++ [x])).getLast? = some x := by
    rw [← List.cons_append, List.getLast?_append]
    rfl
  have hdl : (z :: (ys ++ [x])).dropLast = z :: ys := by
    rw [← List.cons_append, List.dropLast_concat]
  unfold queue.Pop
  rw [hgl, hdl]

/-- Draining a queue whose priorities are all equal returns its first element and then
the others from the last to the second. -/
theorem queue.popN_of_equal :
    ∀ (n : Nat) (x : SRV) (xs : List SRV), xs.length = n →
      (∀ a ∈ x :: xs, ∀ b ∈ x :: xs, a.Priority = b.Priority) →
      queue.popN (n + 1) (x :: xs) = (x :: xs.reverse, []) := by
  intro n
  induction n with
  | zero =>
    intro x xs hl _
    have : xs = [] := List.length_eq_zero.mp hl
    subst this
    rfl
  | succ n ih =>
    intro x xs hl heq
    have hne : xs ≠ [] := by intro h; rw [h] at hl; simp at hl
    obtain ⟨ys, z, rfl⟩ : ∃ ys z, xs = ys ++ [z] :=
      ⟨xs.dropLast, xs.getLast hne, (List.dropLast_append_getLast hne).symm⟩
    have hl' : ys.length = n := by simp at hl; exact hl
    have heq' : ∀ a ∈ z :: ys, ∀ b ∈ z :: ys, a.Priority = b.Priority := by
      intro a ha b hb
      apply heq
      · simp at ha ⊢; tauto
      · simp at hb ⊢; tauto
    rw [queue.popN_succ _ _ x (z :: ys) (queue.heapPop_of_equal x z ys heq),
      ih z ys hl' heq']
    simp

/-! ## The scheduler operations, case by case -/

theorem List.foldl_append_singleton {α : Type} (l acc : List α) :
    l.foldl (fun q r => q ++ [r]) acc = acc ++ l := by
  induction l generalizing acc with
  | nil => simp
  | cons a t ih => simp [ih]

theorem List.map_range_getD {α : Type} (l : List α) (d : α) :
    (List.range l.length).map (fun i => l.getD i d) = l := by
  apply List.ext_getElem
  · simp
  · intro i h1 h2
    simp [List.getD_eq_getElem?_getD, List.getElem?_eq_getElem h2]

theorem Client.GetAddrs_fails_iff (c : Client) (get : Daemon) (service : String) :
    (c.GetAddrs get service).2 ≠ none ↔
      c.tags service = none ∨ ∃ tags err, c.tags service = some tags ∧ get tags = .error err := by
  unfold Client.GetAddrs
  cases h : c.tags service with
  | none => simp
  | some tags =>
    cases h1 : get tags with
    | error err => simp [h1]
    | ok o => simp [h1]

theorem Scheduler.lookup_ok (s : Scheduler) (get : Daemon) (service : String) (l : List SRV)
    (h : s.cli.GetAddrs get service = (l, none)) :
    s.lookup get service
      = (none, { s with services := Function.update s.services service (some l) }) := by
  unfold Scheduler.lookup
  simp only [h, Option.isSome_none, Bool.false_eq_true, if_false, List.map_range_getD]

theorem Scheduler.lookup_err (s : Scheduler) (get : Daemon) (service : String)
    (h : (s.cli.GetAddrs get service).2 ≠ none) :
    s.lookup get service = (errors.Wrap (s.cli.GetAddrs get service).2 "GetAddrs", s) := by
  unfold Scheduler.lookup
  have : (s.cli.GetAddrs get service).2.isSome = true := Option.isSome_iff_ne_none.mpr h
  simp only [this, if_true]

theorem Scheduler.lookup_backends (s : Scheduler) (get : Daemon) (service : String) :
    (s.lookup get service).2.backends = s.backends := by
  unfold Scheduler.lookup
  by_cases h : (s.cli.GetAddrs get service).2.isSome = true <;> simp [h]

theorem Scheduler.lookup_cli (s : Scheduler) (get : Daemon) (service : String) :
    (s.lookup get service).2.cli = s.cli := by
  unfold Scheduler.lookup
  by_cases h : (s.cli.GetAddrs get service).2.isSome = true <;> simp [h]

theorem Scheduler.lookup_services_ne (s : Scheduler) (get : Daemon) (service sv : String)
    (h : sv ≠ service) : (s.lookup get service).2.services sv = s.services sv := by
  unfold Scheduler.lookup
  by_cases h1 : (s.cli.GetAddrs get service).2.isSome = true <;> simp [h1, h]

theorem Scheduler.requeue_eq (s : Scheduler) (service : String) :
    s.requeue service
      = { s with backends := (Function.update s.backends service
            (some (heap.Init queue.iface (s.getSRVs service).1))) } := by
  unfold Scheduler.requeue
  simp only [List.foldl_append_singleton, List.nil_append]

theorem Scheduler.pop_some (s : Scheduler) (service : String) (q : queue) (x : SRV)
    (q1 : queue) (hq : s.backends service = some q)
    (hP : heap.Pop queue.iface q = some (x, q1)) :
    s.pop service
      = (x, { s with backends := Function.update s.backends service (some q1) }) := by
  have hne : q ≠ [] := by
    intro h0
    rw [h0, queue.heapPop_nil] at hP
    exact Option.noConfusion hP
  have hl : queue.Len q > 0 := List.length_pos.mpr hne
  unfold Scheduler.pop
  simp only [hq, hl, if_true, hP]

theorem Scheduler.pop_nil (s : Scheduler) (service : String)
    (hq : s.backends service = some []) : s.pop service = (SRV.zero, s) := by
  unfold Scheduler.pop
  simp [hq, queue.Len]

theorem Scheduler.pop_services (s : Scheduler) (service : String) :
    (s.pop service).2.services = s.services ∧ (s.pop service).2.cli = s.cli := by
  unfold Scheduler.pop
  split
  · split
    · split <;> exact ⟨rfl, rfl⟩
    · exact ⟨rfl, rfl⟩
  · exact ⟨rfl, rfl⟩

theorem Scheduler.pop_frame (s : Scheduler) (service : String) :
    (s.pop service).2.queueLen service ≤ s.queueLen service ∧
      (∀ sv, sv ≠ service → (s.pop service).2.backends sv = s.backends sv) ∧
      (s.pop service).2.services = s.services := by
  cases hq : s.backends service with
  | none =>
    have : s.pop service = (SRV.zero, s) := by unfold Scheduler.pop; rw [hq]
    rw [this]
    exact ⟨le_refl _, fun _ _ => rfl, rfl⟩
  | some q =>
    by_cases hne : q = []
    · subst hne
      rw [Scheduler.pop_nil s service hq]
      exact ⟨le_refl _, fun _ _ => rfl, rfl⟩
    · obtain ⟨x, q1, hP, -, hl, -⟩ := queue.heapPop_frame q hne
      rw [Scheduler.pop_some s service q x q1 hq hP]
      refine ⟨?_, fun sv hsv => ?_, rfl⟩
      · simp only [Scheduler.queueLen, Function.update_same, hq, queue.Len]
        omega
      · simp only [Function.update_noteq hsv]

theorem Scheduler.refillState_backends (s : Scheduler) (get : Daemon) (service : String) :
    (s.refillState get service).backends = s.backends := by
  unfold Scheduler.refillState
  split
  · rfl
  · exact Scheduler.lookup_backends s get service

theorem Scheduler.NextBackend_filled (s : Scheduler) (get : Daemon) (service : String)
    (q : queue) (hq : s.backends service = some q) (hne : q ≠ []) :
    s.NextBackend get service = s.pop service := by
  have hl : ¬ q.length = 0 := fun h => hne (List.length_eq_zero.mp h)
  unfold Scheduler.NextBackend Scheduler.getQueue
  simp [hq, queue.Len, hl]

theorem Scheduler.NextBackend_refill (s : Scheduler) (get : Daemon) (service : String)
    (hq : s.backends service = none ∨ s.backends service = some []) :
    s.NextBackend get service
      = ((s.refillState get service).requeue service).pop service := by
  unfold Scheduler.NextBackend Scheduler.getQueue Scheduler.refillState
  rcases hq with hq | hq <;> simp [hq, queue.Len]

theorem Scheduler.NextBackend_services (s : Scheduler) (get : Daemon) (service : String)
    (hq : s.backends service = none ∨ s.backends service = some []) :
    (s.NextBackend get service).2.services = (s.refillState get service).services := by
  rw [Scheduler.NextBackend_refill s get service hq, (Scheduler.pop_services _ _).1,
    Scheduler.requeue_eq]

/-! ## Runs of `NextBackend` calls -/

/-- While the queue holds at least as many endpoints as there are calls, the calls are
plain pops: they return the first results of draining the queue and touch nothing but
the queue of that service. -/
theorem Scheduler.calls_filled (service : String) :
    ∀ (gets : List Daemon) (s : Scheduler) (q : queue), s.backends service = some q →
      gets.length ≤ q.length →
      s.calls service gets
        = ((queue.popN gets.length q).1,
            { s with backends := (Function.update s.backends service
                (some (queue.popN gets.length q).2)) }) := by
  intro gets
  induction gets with
  | nil =>
    intro s q hq _
    simp only [Scheduler.calls, List.length_nil, queue.popN_zero]
    rw [← hq, Function.update_eq_self]
  | cons get gets ih =>
    intro s q hq hl
    have hne : q ≠ [] := by intro h; rw [h] at hl; simp at hl
    obtain ⟨x, q1, hP, -, hl1, -⟩ := queue.heapPop_frame q hne
    have hl' : gets.length ≤ q1.length := by simp at hl; omega
    rw [Scheduler.calls, Scheduler.NextBackend_filled s get service q hq hne,
      Scheduler.pop_some s service q x q1 hq hP]
    simp only
    rw [ih _ q1 (by simp) hl', List.length_cons, queue.popN_succ _ q x q1 hP]
    simp only [Function.update_idem]

/-- A run of calls that starts with a refill and stays within the refilled queue: the
results are the first pops of the heap built from the full set, and only the queue of
the service changes after the refill. -/
theorem Scheduler.calls_fill (s : Scheduler) (service : String) (get : Daemon)
    (gets : List Daemon)
    (hq : s.backends service = none ∨ s.backends service = some [])
    (hlen : gets.length + 1 ≤ ((s.refillState get service).getSRVs service).1.length) :
    s.calls service (get :: gets)
      = ((queue.popN (gets.length + 1)
            (heap.Init queue.iface ((s.refillState get service).getSRVs service).1)).1,
          { s.refillState get service with
            backends := (Function.update (s.refillState get service).backends service
              (some (queue.popN (gets.length + 1)
                (heap.Init queue.iface
                  ((s.refillState get service).getSRVs service).1)).2)) }) := by
  have hI := queue.Init_spec ((s.refillState get service).getSRVs service).1
  generalize hh : heap.Init queue.iface ((s.refillState get service).getSRVs service).1 = h
    at hI ⊢
  have hne : h ≠ [] := by
    intro h0
    rw [h0] at hI
    have := hI.1
    simp at this
    omega
  have h2 : ((s.refillState get service).requeue service).backends service = some h := by
    rw [Scheduler.requeue_eq, hh]
    simp
  have e1 : s.NextBackend get service
      = ((s.refillState get service).requeue service).NextBackend get service := by
    rw [Scheduler.NextBackend_refill s get service hq,
      Scheduler.NextBackend_filled _ get service h h2 hne]
  have e2 : s.calls service (get :: gets)
      = ((s.refillState get service).requeue service).calls service (get :: gets) := by
    rw [Scheduler.calls, Scheduler.calls, e1]
  rw [e2, Scheduler.calls_filled service (get :: gets) _ h h2 (by rw [hI.1]; exact hlen)]
  rw [Scheduler.requeue_eq, hh]
  simp only [List.length_cons, Function.update_idem]

theorem Scheduler.calls_append (service : String) :
    ∀ (g1 g2 : List Daemon) (s : Scheduler),
      s.calls service (g1 ++ g2)
        = ((s.calls service g1).1 ++ ((s.calls service g1).2.calls service g2).1,
            ((s.calls service g1).2.calls service g2).2) := by
  intro g1
  induction g1 with
  | nil => intro g2 s; rfl
  | cons g g1 ih =>
    intro g2 s
    rw [List.cons_append, Scheduler.calls, Scheduler.calls, ih]
    rfl

theorem Scheduler.calls_length (service : String) :
    ∀ (gets : List Daemon) (s : Scheduler), (s.calls service gets).1.length = gets.length := by
  intro gets
  induction gets with
  | nil => intro s; rfl
  | cons g gets ih => intro s; simp [Scheduler.calls, ih]

/-- One full cycle: a run of calls that starts with a refill and makes as many calls as the
full set has endpoints returns a permutation of the full set and leaves the queue empty. -/
theorem Scheduler.calls_cycle (s : Scheduler) (service : String) (get : Daemon)
    (gets : List Daemon)
    (hq : s.backends service = none ∨ s.backends service = some [])
    (hlen : gets.length + 1 = ((s.refillState get service).getSRVs service).1.length) :
    (s.calls service (get :: gets)).1.Perm ((s.refillState get service).getSRVs service).1 ∧
      (s.calls service (get :: gets)).2.backends service = some [] ∧
      (s.calls service (get :: gets)).2.services = (s.refillState get service).services := by
  rw [Scheduler.calls_fill s service get gets hq (le_of_eq hlen)]
  obtain ⟨hl, hp, -⟩ := queue.Init_spec ((s.refillState get service).getSRVs service).1
  rw [hlen, ← hl]
  obtain ⟨a, b⟩ := queue.popN_all
    (heap.Init queue.iface ((s.refillState get service).getSRVs service).1)
  refine ⟨a.trans hp, ?_, rfl⟩
  simp only [Function.update_same, b]

/-! ## Round-robin -/

/-- C1. Round-robin. For a service without a queue whose discovery answers every call
with the same list `l` of `N ≥ 1` distinct endpoints, the first `N` of `2 * N` consecutive
`NextBackend` calls return a permutation of `l`, and so do the calls `N + 1 .. 2 * N`:
every endpoint is returned exactly once in each of the two cycles. (The endpoints need
not even have equal priorities.) -/
theorem Scheduler.round_robin (s : Scheduler) (service : String) (l : List SRV)
    (gets : List Daemon)
    (hq : s.backends service = none)
    (hd : ∀ get ∈ gets, s.cli.GetAddrs get service = (l, none))
    (hN : 1 ≤ l.length) (hnd : l.Nodup)
    (hlen : gets.length = 2 * l.length) :
    ((s.calls service gets).1.take l.length).Perm l ∧
      ((s.calls service gets).1.drop l.length).Perm l ∧
      ∀ e ∈ l, ((s.calls service gets).1.take l.length).count e = 1 ∧
        ((s.calls service gets).1.drop l.length).count e = 1 := by
  have hsplit : gets = gets.take l.length ++ gets.drop l.length :=
    (List.take_append_drop _ _).symm
  have h1l : (gets.take l.length).length = l.length := by
    rw [List.length_take]; omega
  have h2l : (gets.drop l.length).length = l.length := by
    rw [List.length_drop]; omega
  generalize gets.take l.length = g1 at hsplit h1l
  generalize gets.drop l.length = g2 at hsplit h2l
  subst hsplit
  obtain ⟨get1, gs1, rfl⟩ : ∃ a t, g1 = a :: t := by
    cases g1 with
    | nil => simp at h1l; omega
    | cons a t => exact ⟨a, t, rfl⟩
  obtain ⟨get2, gs2, rfl⟩ : ∃ a t, g2 = a :: t := by
    cases g2 with
    | nil => simp at h2l; omega
    | cons a t => exact ⟨a, t, rfl⟩
  -- the first cycle: on-demand lookup, refill, `N` pops
  have hr1 : s.refillState get1 service
      = { s with services := Function.update s.services service (some l) } := by
    unfold Scheduler.refillState
    rw [hq, Scheduler.lookup_ok s get1 service l (hd get1 (by simp))]
    rfl
  have hf1 : ((s.refillState get1 service).getSRVs service).1 = l := by
    rw [hr1]; simp [Scheduler.getSRVs]
  obtain ⟨p1, b1, c1⟩ := Scheduler.calls_cycle s service get1 gs1 (Or.inl hq)
    (by rw [hf1]; simpa using h1l)
  rw [hf1] at p1
  -- the second cycle: refill from the same full set, `N` pops
  generalize hs1 : (s.calls service (get1 :: gs1)).2 = s1 at b1 c1
  have hr2 : s1.refillState get2 service = s1 := by
    unfold Scheduler.refillState
    rw [b1]; rfl
  have hf2 : ((s1.refillState get2 service).getSRVs service).1 = l := by
    rw [hr2]
    unfold Scheduler.getSRVs
    rw [c1, hr1]
    simp
  obtain ⟨p2, -, -⟩ := Scheduler.calls_cycle s1 service get2 gs2 (Or.inr b1)
    (by rw [hf2]; simpa using h2l)
  rw [hf2] at p2
  have hl1 : (s.calls service (get1 :: gs1)).1.length = l.length := by
    rw [Scheduler.calls_length]; exact h1l
  rw [Scheduler.calls_append, hs1]
  simp only
  rw [← hl1, List.take_left, List.drop_left]
  refine ⟨p1, p2, fun e he => ⟨?_, ?_⟩⟩
  · rw [p1.count_eq]; exact List.count_eq_one_of_mem hnd he
  · rw [p2.count_eq]; exact List.count_eq_one_of_mem hnd he

theorem Scheduler.round_robin_witness :
    Example.sched.backends "svcA" = none ∧
      ((Example.sched.calls "svcA" (List.replicate 6 Example.daemon3)).1.take 3).Perm
        [Example.a, Example.b, Example.c] ∧
      ((Example.sched.calls "svcA" (List.replicate 6 Example.daemon3)).1.drop 3).Perm
        [Example.a, Example.b, Example.c] :=
  have h := Scheduler.round_robin Example.sched "svcA" [Example.a, Example.b, Example.c]
    (List.replicate 6 Example.daemon3) rfl
    (by intro get hg; rw [List.eq_of_mem_replicate hg]; rfl)
    (by decide) (by decide) rfl
  ⟨rfl, h.1, h.2.1⟩

/-! ## Priority order within one fill -/

/-- C2. Priority order. Starting where the queue of a service is missing or empty (so that
the first call refills it), the `NextBackend` calls that draw on this one fill, at most as
many as the full set has endpoints, return endpoints of non-decreasing priority value,
whatever the priorities in the full set are. -/
theorem Scheduler.priority_order_within_fill (s : Scheduler) (service : String)
    (get : Daemon) (gets : List Daemon)
    (hq : s.backends service = none ∨ s.backends service = some [])
    (hlen : (get :: gets).length ≤ ((s.NextBackend get service).2.getSRVs service).1.length) :
    List.Pairwise (fun a b : SRV => a.Priority ≤ b.Priority)
      (s.calls service (get :: gets)).1 := by
  have e : ((s.NextBackend get service).2.getSRVs service).1
      = ((s.refillState get service).getSRVs service).1 := by
    unfold Scheduler.getSRVs
    rw [Scheduler.NextBackend_services s get service hq]
  rw [e] at hlen
  rw [Scheduler.calls_fill s service get gets hq hlen]
  exact queue.popN_sorted _ _ (queue.Init_heap _)

theorem Scheduler.priority_order_within_fill_witness :
    (Example.schedMixed.backends "svcA" = none ∨ Example.schedMixed.backends "svcA" = some []) ∧
      List.Pairwise (fun a b : SRV => a.Priority ≤ b.Priority)
        (Example.schedMixed.calls "svcA"
          [Example.daemonDown, Example.daemonDown, Example.daemonDown]).1 :=
  ⟨Or.inl rfl,
    Scheduler.priority_order_within_fill Example.schedMixed "svcA" Example.daemonDown
      [Example.daemonDown, Example.daemonDown] (Or.inl rfl) (by decide)⟩

/-! ## Order among equal priorities -/

/-- C3, counterexample. With the full set `[a, b, c]` of three endpoints of equal priority
the first three `NextBackend` calls return `a`, then `c`, then `b`: not the order in which
discovery listed them. -/
theorem Scheduler.stable_order_counterexample :
    (Example.sched.cli.GetAddrs Example.daemon3 "svcA").1 = [Example.a, Example.b, Example.c] ∧
      (Example.sched.calls "svcA" (List.replicate 3 Example.daemon3)).1
        = [Example.a, Example.c, Example.b] ∧
      (Example.sched.calls "svcA" (List.replicate 3 Example.daemon3)).1
        ≠ [Example.a, Example.b, Example.c] := by
  decide

/-- C3, amended. When all endpoints of the full set have the same priority, the calls of
one queue fill return the endpoint that discovery listed first and then the others in the
reverse of the order in which discovery listed them. -/
theorem Scheduler.equal_priority_order (s : Scheduler) (service : String) (get : Daemon)
    (gets : List Daemon) (x : SRV) (xs : List SRV)
    (hq : s.backends service = none ∨ s.backends service = some [])
    (hfull : ((s.NextBackend get service).2.getSRVs service).1 = x :: xs)
    (heq : ∀ a ∈ x :: xs, ∀ b ∈ x :: xs, a.Priority = b.Priority)
    (hlen : (get :: gets).length = (x :: xs).length) :
    (s.calls service (get :: gets)).1 = x :: xs.reverse := by
  have e : ((s.NextBackend get service).2.getSRVs service).1
      = ((s.refillState get service).getSRVs service).1 := by
    unfold Scheduler.getSRVs
    rw [Scheduler.NextBackend_services s get service hq]
  rw [e] at hfull
  rw [Scheduler.calls_fill s service get gets hq (by rw [hfull]; exact le_of_eq hlen), hfull,
    queue.Init_of_equal _ heq]
  have hl : gets.length = xs.length := by simpa using hlen
  rw [hl, queue.popN_of_equal xs.length x xs rfl heq]

theorem Scheduler.equal_priority_order_witness :
    (Example.sched.backends "svcA" = none ∨ Example.sched.backends "svcA" = some []) ∧
      (Example.sched.calls "svcA" [Example.daemon3, Example.daemon3, Example.daemon3]).1
        = Example.a :: [Example.b, Example.c].reverse :=
  ⟨Or.inl rfl,
    Scheduler.equal_priority_order Example.sched "svcA" Example.daemon3
      [Example.daemon3, Example.daemon3] Example.a [Example.b, Example.c] (Or.inl rfl) rfl
      (by decide) rfl⟩

/-! ## Failed lookups -/

/-- C6. A failed lookup is atomic: when `GetAddrs` fails (the service has no label filter,
or the daemon call, the read or the decoding fails), `lookup` returns a non-nil error and
the scheduler state is the one before the call, so every full set and every selection
queue is unchanged. -/
theorem Scheduler.lookup_failure_atomic (s : Scheduler) (get : Daemon) (service : String)
    (h : (s.cli.GetAddrs get service).2 ≠ none) :
    (s.lookup get service).1 ≠ none ∧ (s.lookup get service).2 = s ∧
      (s.lookup get service).2.services = s.services ∧
      (s.lookup get service).2.backends = s.backends := by
  rw [Scheduler.lookup_err s get service h]
  refine ⟨?_, rfl, rfl, rfl⟩
  cases h1 : (s.cli.GetAddrs get service).2 with
  | none => exact absurd h1 h
  | some e => simp [errors.Wrap]

theorem Scheduler.lookup_failure_atomic_witness :
    (Example.schedMixed.cli.GetAddrs Example.daemonDown "svcA").2 ≠ none ∧
      (Example.schedMixed.lookup Example.daemonDown "svcA").1 ≠ none ∧
      (Example.schedMixed.lookup Example.daemonDown "svcA").2 = Example.schedMixed :=
  have h := Scheduler.lookup_failure_atomic Example.schedMixed Example.daemonDown "svcA"
    (by decide)
  ⟨by decide, h.1, h.2.1⟩

/-! ## Refresh and queues in progress -/

/-- C7. A refresh does not disturb a queue in progress. When the queue of a service holds
`k` endpoints (any `k`, also `k = 0`) and a lookup succeeds and stores the new full set
`l1`, the next `k` `NextBackend` calls return, in the same order, what they would have
returned without the lookup; and if `l1` is not empty the call after them refills the
queue from `l1`: it returns an endpoint of `l1`, and that endpoint together with the queue
it leaves is a permutation of `l1`. -/
theorem Scheduler.refresh_keeps_queue (s : Scheduler) (service : String) (q : queue)
    (get : Daemon) (l1 : List SRV) (gets : List Daemon) (get1 : Daemon)
    (hq : s.backends service = some q)
    (hl : s.cli.GetAddrs get service = (l1, none))
    (hg : gets.length = q.length) :
    (s.lookup get service).1 = none ∧
      (s.lookup get service).2.services service = some l1 ∧
      ((s.lookup get service).2.calls service gets).1 = (s.calls service gets).1 ∧
      (l1 ≠ [] →
        (((s.lookup get service).2.calls service gets).2.NextBackend get1 service).1 ∈ l1 ∧
        ∃ q1, (((s.lookup get service).2.calls service gets).2.NextBackend get1
                service).2.backends service = some q1 ∧
          ((((s.lookup get service).2.calls service gets).2.NextBackend get1 service).1
            :: q1).Perm l1) := by
  have e := Scheduler.lookup_ok s get service l1 hl
  refine ⟨by rw [e], ?_⟩
  have hq1 : (s.lookup get service).2.backends service = some q := by rw [e]; exact hq
  have hsv : (s.lookup get service).2.services service = some l1 := by rw [e]; simp
  generalize (s.lookup get service).2 = s1 at hq1 hsv ⊢
  have hc := Scheduler.calls_filled service gets s1 q hq1 (le_of_eq hg)
  refine ⟨hsv, ?_, ?_⟩
  · rw [hc, Scheduler.calls_filled service gets s q hq (le_of_eq hg)]
  · intro hne
    have hb : (s1.calls service gets).2.backends service = some [] := by
      rw [hc, hg, (queue.popN_all q).2]
      simp
    have hf : ((s1.calls service gets).2.getSRVs service).1 = l1 := by
      rw [hc]
      simp [Scheduler.getSRVs, hsv]
    generalize (s1.calls service gets).2 = s2 at hb hf
    have hr : s2.refillState get1 service = s2 := by
      unfold Scheduler.refillState
      rw [hb]; rfl
    obtain ⟨hil, hip, -⟩ := queue.Init_spec l1
    have hine : heap.Init queue.iface l1 ≠ [] := by
      intro h0
      rw [h0] at hil
      exact hne (List.length_eq_zero.mp hil.symm)
    obtain ⟨x, q1, hP, -, -, hp⟩ := queue.heapPop_frame _ hine
    rw [Scheduler.NextBackend_refill s2 get1 service (Or.inr hb), hr, Scheduler.requeue_eq, hf,
      Scheduler.pop_some _ service (heap.Init queue.iface l1) x q1 (by simp) hP]
    refine ⟨(hp.trans hip).subset (List.mem_cons_self _ _), q1, by simp, hp.trans hip⟩

theorem Scheduler.refresh_keeps_queue_witness :
    (Example.sched.NextBackend Example.daemon3 "svcA").2.backends "svcA"
        = some [Example.c, Example.b] ∧
      ((Example.sched.NextBackend Example.daemon3 "svcA").2.cli.GetAddrs Example.daemon1
          "svcA") = ([Example.d], none) ∧
      (((Example.sched.NextBackend Example.daemon3 "svcA").2.lookup Example.daemon1
          "svcA").2.calls "svcA" [Example.daemon0, Example.daemon0]).1
        = ((Example.sched.NextBackend Example.daemon3 "svcA").2.calls "svcA"
            [Example.daemon0, Example.daemon0]).1 ∧
      ((((Example.sched.NextBackend Example.daemon3 "svcA").2.lookup Example.daemon1
          "svcA").2.calls "svcA" [Example.daemon0, Example.daemon0]).2.NextBackend
            Example.daemon0 "svcA").1 ∈ [Example.d] :=
  have h := Scheduler.refresh_keeps_queue (Example.sched.NextBackend Example.daemon3 "svcA").2
    "svcA" [Example.c, Example.b] Example.daemon1 [Example.d]
    [Example.daemon0, Example.daemon0] Example.daemon0 (by decide) (by decide) rfl
  ⟨by decide, by decide, h.2.2.1, (h.2.2.2 (by decide)).1⟩

/-! ## Queue size against full-set size -/

theorem Scheduler.NextBackend_frame (s : Scheduler) (get : Daemon) (service : String)
    (hinv : ∀ sv, s.queueLen sv ≤ s.fullLen sv) :
    ∀ sv, (s.NextBackend get service).2.queueLen sv
      ≤ (s.NextBackend get service).2.fullLen sv := by
  by_cases hq : s.backends service = none ∨ s.backends service = some []
  · rw [Scheduler.NextBackend_refill s get service hq]
    obtain ⟨a, b, c⟩ := Scheduler.pop_frame ((s.refillState get service).requeue service) service
    intro sv
    by_cases hsv : sv = service
    · subst hsv
      refine le_trans a ?_
      unfold Scheduler.fullLen Scheduler.getSRVs
      rw [c, Scheduler.requeue_eq]
      simp only [Scheduler.queueLen, Function.update_same, queue.Len,
        (queue.Init_spec _).1]
      exact le_refl _
    · have h1 : ((s.refillState get service).requeue service).backends sv = s.backends sv := by
        rw [Scheduler.requeue_eq]
        simp only [Function.update_noteq hsv, Scheduler.refillState_backends]
      have h2 : (s.refillState get service).services sv = s.services sv := by
        unfold Scheduler.refillState
        split
        · rfl
        · exact Scheduler.lookup_services_ne s get service sv hsv
      have h3 := hinv sv
      unfold Scheduler.queueLen Scheduler.fullLen Scheduler.getSRVs at h3 ⊢
      rw [b sv hsv, h1, c, Scheduler.requeue_eq]
      simp only
      rw [h2]
      exact h3
  · obtain ⟨q, hq1, hne⟩ : ∃ q, s.backends service = some q ∧ q ≠ [] := by
      cases h : s.backends service with
      | none => exact absurd (Or.inl h) hq
      | some q => exact ⟨q, rfl, fun h0 => hq (Or.inr (by rw [h, h0]))⟩
    rw [Scheduler.NextBackend_filled s get service q hq1 hne]
    obtain ⟨a, b, c⟩ := Scheduler.pop_frame s service
    intro sv
    by_cases hsv : sv = service
    · subst hsv
      refine le_trans a (le_trans (hinv sv) ?_)
      unfold Scheduler.fullLen Scheduler.getSRVs
      rw [c]
    · have h3 := hinv sv
      unfold Scheduler.queueLen Scheduler.fullLen Scheduler.getSRVs at h3 ⊢
      rw [b sv hsv, c]
      exact h3

theorem Scheduler.lookup_frame (s : Scheduler) (get : Daemon) (service : String)
    (hinv : ∀ sv, s.queueLen sv ≤ s.fullLen sv)
    (hns : (s.cli.GetAddrs get service).2 = none →
      s.queueLen service ≤ (s.cli.GetAddrs get service).1.length) :
    ∀ sv, (s.lookup get service).2.queueLen sv ≤ (s.lookup get service).2.fullLen sv := by
  intro sv
  by_cases h : (s.cli.GetAddrs get service).2 = none
  · have e : s.cli.GetAddrs get service = ((s.cli.GetAddrs get service).1, none) := by
      rw [← h]
    rw [Scheduler.lookup_ok s get service _ e]
    by_cases hsv : sv = service
    · subst hsv
      have := hns h
      simpa [Scheduler.queueLen, Scheduler.fullLen, Scheduler.getSRVs] using this
    · have := hinv sv
      simpa [Scheduler.queueLen, Scheduler.fullLen, Scheduler.getSRVs, hsv] using this
  · rw [Scheduler.lookup_err s get service h]
    exact hinv sv

theorem Scheduler.run_frame :
    ∀ (ops : List Scheduler.Op) (s : Scheduler), (∀ sv, s.queueLen sv ≤ s.fullLen sv) →
      s.NoShrink ops → ∀ sv, (s.run ops).queueLen sv ≤ (s.run ops).fullLen sv := by
  intro ops
  induction ops with
  | nil => intro s hinv _; exact hinv
  | cons op ops ih =>
    intro s hinv hns
    cases op with
    | NextBackend service get =>
      exact ih _ (Scheduler.NextBackend_frame s get service hinv) hns
    | lookup service get =>
      exact ih _ (Scheduler.lookup_frame s get service hinv hns.1) hns.2

/-- C10, counterexample. After one `NextBackend` call on a full set of three endpoints the
queue holds two of them; a refresh that finds no endpoint then empties the full set and
leaves the queue alone, so the queue is longer than the full set. -/
theorem Scheduler.queue_size_counterexample :
    (Example.sched.run [.NextBackend "svcA" Example.daemon3,
        .lookup "svcA" Example.daemon0]).queueLen "svcA" = 2 ∧
      (Example.sched.run [.NextBackend "svcA" Example.daemon3,
        .lookup "svcA" Example.daemon0]).fullLen "svcA" = 0 ∧
      ¬ ((Example.sched.run [.NextBackend "svcA" Example.daemon3,
            .lookup "svcA" Example.daemon0]).queueLen "svcA"
          ≤ (Example.sched.run [.NextBackend "svcA" Example.daemon3,
            .lookup "svcA" Example.daemon0]).fullLen "svcA") := by
  decide

/-- C10, amended. In every scheduler state reached from `NewScheduler` by `NextBackend`
calls and successful or failed `lookup` calls in which no successful lookup stores fewer
endpoints than the queue of that service holds at that moment, the selection queue of
every service is at most as long as its current full set. -/
theorem Scheduler.queue_size_invariant (interval : Nat) (custom : Option (String → List SRV))
    (tags : String → Option (List String)) (ops : List Scheduler.Op)
    (h : (NewScheduler interval custom tags).NoShrink ops) (service : String) :
    ((NewScheduler interval custom tags).run ops).queueLen service
      ≤ ((NewScheduler interval custom tags).run ops).fullLen service :=
  Scheduler.run_frame ops _ (fun _ => Nat.zero_le _) h service

theorem Scheduler.queue_size_invariant_witness :
    (NewScheduler 1 none Example.tags).NoShrink
        [.NextBackend "svcA" Example.daemon3, .lookup "svcA" Example.daemonDown,
          .lookup "svcA" Example.daemon3, .NextBackend "svcA" Example.daemon0] ∧
      ((NewScheduler 1 none Example.tags).run
        [.NextBackend "svcA" Example.daemon3, .lookup "svcA" Example.daemonDown,
          .lookup "svcA" Example.daemon3, .NextBackend "svcA" Example.daemon0]).queueLen "svcA"
      ≤ ((NewScheduler 1 none Example.tags).run
        [.NextBackend "svcA" Example.daemon3, .lookup "svcA" Example.daemonDown,
          .lookup "svcA" Example.daemon3, .NextBackend "svcA" Example.daemon0]).fullLen "svcA" :=
  ⟨by decide, Scheduler.queue_size_invariant 1 none Example.tags _ (by decide) "svcA"⟩

/-! ## Counters -/

theorem wrap32_eq (x : Int) (h1 : -2147483648 ≤ x) (h2 : x ≤ 2147483647) : wrap32 x = x := by
  unfold wrap32
  norm_num
  omega

theorem Stats.event_p99 (s : Stats) (ev : Stats.Event) : (s.event ev).p99 = s.p99 := by
  cases ev <;> rfl

theorem Stats.interleave_counts :
    ∀ (evs : List Stats.Event) (s : Stats), (0 : Int) ≤ s.Success → (0 : Int) ≤ s.Error →
      s.Success + (evs.countP Stats.Event.isSuccess : Int) ≤ 2147483647 →
      s.Error + (evs.count Stats.Event.error : Int) ≤ 2147483647 →
      (s.interleave evs).Success = s.Success + (evs.countP Stats.Event.isSuccess : Int) ∧
        (s.interleave evs).Error = s.Error + (evs.count Stats.Event.error : Int) := by
  intro evs
  induction evs with
  | nil => intro s _ _ _ _; simp [Stats.interleave]
  | cons ev evs ih =>
    intro s h1 h2 h3 h4
    have hstep : s.interleave (ev :: evs) = (s.event ev).interleave evs := rfl
    rw [hstep]
    cases ev with
    | success k =>
      have e1 : (s.event (.success k)).Success = s.Success + 1 := by
        show wrap32 (s.Success + 1) = _
        simp only [List.countP_cons, Stats.Event.isSuccess, if_true] at h3
        exact wrap32_eq _ (by omega) (by omega)
      have e2 : (s.event (.success k)).Error = s.Error := rfl
      simp only [List.countP_cons, Stats.Event.isSuccess, if_true] at h3 ⊢
      have h4' : s.Error + (evs.count Stats.Event.error : Int) ≤ 2147483647 := by
        simpa [List.count_cons] using h4
      obtain ⟨a, b⟩ := ih (s.event (.success k)) (by rw [e1]; omega) (by rw [e2]; exact h2)
        (by rw [e1]; push_cast at h3 ⊢; omega) (by rw [e2]; exact h4')
      rw [a, b, e1, e2]
      constructor
      · push_cast; omega
      · simp [List.count_cons]
    | error =>
      have e1 : (s.event .error).Error = s.Error + 1 := by
        show wrap32 (s.Error + 1) = _
        simp only [List.count_cons_self] at h4
        exact wrap32_eq _ (by omega) (by push_cast at h4; omega)
      have e2 : (s.event .error).Success = s.Success := rfl
      simp only [List.count_cons_self] at h4 ⊢
      have h3' : s.Success + (evs.countP Stats.Event.isSuccess : Int) ≤ 2147483647 := by
        simpa [List.countP_cons, Stats.Event.isSuccess] using h3
      obtain ⟨a, b⟩ := ih (s.event .error) (by rw [e2]; exact h1) (by rw [e1]; omega)
        (by rw [e2]; exact h3') (by rw [e1]; push_cast at h4 ⊢; omega)
      rw [a, b, e1, e2]
      constructor
      · simp [List.countP_cons, Stats.Event.isSuccess]
      · push_cast; omega

theorem Stats.countP_success (K : Nat) :
    ∀ (evs : List Stats.Event), (∀ k, Stats.Event.success k ∈ evs → k < K) →
      evs.countP Stats.Event.isSuccess
        = ∑ k in Finset.range K, evs.count (Stats.Event.success k) := by
  intro evs
  induction evs with
  | nil => intro _; simp
  | cons ev evs ih =>
    intro h
    have ih' := ih (fun k hk => h k (List.mem_cons_of_mem _ hk))
    cases ev with
    | success j =>
      have hj : j < K := h j (List.mem_cons_self _ _)
      simp only [List.countP_cons, Stats.Event.isSuccess, if_true, List.count_cons]
      rw [Finset.sum_add_distrib, ← ih']
      congr 1
      simp [hj]
    | error =>
      simp only [List.countP_cons, Stats.Event.isSuccess, List.count_cons]
      simpa using ih'

/-- C9. No lost counter updates. On a fresh `Stats`, after `K` callers have each run
`IncSuccess` `C` times and `m` `IncError` calls have been made, the atomic increments
taking effect in any order, `Success() = K * C`, `Error() = m` and
`Count() = Success() + Error() = K * C + m`, provided `K * C + m ≤ 2^31 - 1`. -/
theorem Stats.no_lost_updates (K C m : Nat) (evs : List Stats.Event)
    (hcallers : ∀ k, k < K → evs.count (Stats.Event.success k) = C)
    (honly : ∀ k, Stats.Event.success k ∈ evs → k < K)
    (herr : evs.count Stats.Event.error = m)
    (hb : K * C + m ≤ 2 ^ 31 - 1) :
    (NewStats.interleave evs).Success = K * C ∧
      (NewStats.interleave evs).Error = m ∧
      (NewStats.interleave evs).Count
        = (NewStats.interleave evs).Success + (NewStats.interleave evs).Error ∧
      (NewStats.interleave evs).Count = K * C + m := by
  have hs : evs.countP Stats.Event.isSuccess = K * C := by
    rw [Stats.countP_success K evs honly, Finset.sum_congr rfl
      (fun k hk => hcallers k (Finset.mem_range.mp hk))]
    simp
  have hb' : K * C + m ≤ 2147483647 := by norm_num at hb; exact hb
  have h0 : NewStats.Success = 0 := rfl
  have h1 : NewStats.Error = 0 := rfl
  obtain ⟨a, b⟩ := Stats.interleave_counts evs NewStats (by rw [h0]) (by rw [h1])
    (by rw [h0, hs]; push_cast; omega) (by rw [h1, herr]; omega)
  rw [h0, hs, zero_add] at a
  rw [h1, herr, zero_add] at b
  have hc : (NewStats.interleave evs).Count = K * C + m := by
    show wrap32 ((NewStats.interleave evs).Success + (NewStats.interleave evs).Error) = _
    rw [a, b]
    push_cast
    apply wrap32_eq
    · have : (0 : Int) ≤ (K : Int) * (C : Int) := by positivity
      omega
    · have : ((K * C + m : Nat) : Int) ≤ 2147483647 := by exact_mod_cast hb'
      push_cast at this
      exact this
  refine ⟨by rw [a]; push_cast; rfl, b, ?_, hc⟩
  rw [hc, a, b]
  push_cast
  rfl

theorem Stats.no_lost_updates_witness :
    (∀ k, k < 2 → [Stats.Event.success 0, .success 1, .error, .success 1,
        .success 0].count (Stats.Event.success k) = 2) ∧
      (NewStats.interleave [Stats.Event.success 0, .success 1, .error, .success 1,
        .success 0]).Success = ((2 * 2 : Nat) : Int) :=
  ⟨by decide,
    (Stats.no_lost_updates 2 2 1
      [Stats.Event.success 0, .success 1, .error, .success 1, .success 0]
      (by decide) (by intro k hk; simp at hk; omega) (by decide) (by decide)).1⟩

/-! ## The percentile -/

set_option maxRecDepth 1000000 in
/-- C4, the code at the failing inputs. After recording `2, 3, 1` the heap array is
`[1, 3, 2]` and `P99()` returns its last slot `2`, while only two of the three samples are
`≤ 2`, fewer than 98%; and after recording the samples `1..100` in the order
`2, 3, ..., 100, 1`, `P99()` returns `51`, neither `99` nor `100`. -/
theorem Stats.P99_last_slot :
    (NewStats.records [2, 3, 1]).p99 = [1, 3, 2] ∧
      (NewStats.records [2, 3, 1]).P99 = 2 ∧
      ¬ (98 * [2, 3, 1].length ≤ 100 * ([2, 3, 1].filter (fun t : Int => t ≤ 2)).length) ∧
      Example.samples.length = 100 ∧
      (∀ v : Fin 100, ((v : Nat) : Int) + 1 ∈ Example.samples) ∧
      (NewStats.records Example.samples).P99 = 51 := by
  refine ⟨by decide, by decide, by decide, by decide, by decide, ?_⟩
  decide

/-! ## Routing -/

/-- C5, the code at the failing input. With the single route `/api` to `svcA`, the URI
`/x/api` does not start with `/api`, and yet `matcherFn` selects `svcA` for it and
returns the whole URI as the forwarded path. -/
theorem Proxy.matcherFn_contains :
    Example.proxy.routeMap = [("svcA", "/api")] ∧
      strings.HasPrefix "/x/api" "/api" = false ∧
      Example.proxy.matcherFn "/x/api" = ("svcA", "/x/api") := by
  decide

theorem Proxy.matcherLoop_none (uri : String) :
    ∀ (m : List (String × String)), (∀ e ∈ m, strings.Contains uri e.2 = false) →
      Proxy.matcherLoop uri m = ("", "") := by
  intro m
  induction m with
  | nil => intro _; rfl
  | cons e m ih =>
    intro h
    obtain ⟨s, pattern⟩ := e
    have h1 : strings.Contains uri pattern = false := h (s, pattern) (List.mem_cons_self _ _)
    rw [Proxy.matcherLoop, h1]
    exact ih (fun e he => h e (List.mem_cons_of_mem _ he))

/-- C8, counterexample. For the unmatched URI `/unknown` the proxy built by `NewProxy`
answers with status `400`, but the body it writes is the default body followed by a line
feed, not the default body itself; at `2^31 - 1` errors the error counter wraps to
`-2^31` instead of growing by one; and with the default status `1000` the handler panics
in `WriteHeader`: no reply is written and the error counter stays where it was. -/
theorem Proxy.unmatched_counterexample :
    (Example.proxy.ServeHTTP Example.daemon3 "/unknown" none 5).1
        = some ⟨400, "- not found -\n"⟩ ∧
      (Example.proxy.ServeHTTP Example.daemon3 "/unknown" none 5).1
        ≠ some ⟨Example.proxy.defaultStatus, Example.proxy.defaultBody⟩ ∧
      Example.proxyFull.Stats.Error = 2147483647 ∧
      (Example.proxyFull.ServeHTTP Example.daemon3 "/unknown" none 5).2.Stats.Error
        = -2147483648 ∧
      Example.proxyCode1000.defaultStatus = 1000 ∧
      (Example.proxyCode1000.ServeHTTP Example.daemon3 "/unknown" none 5).1 = none ∧
      (Example.proxyCode1000.ServeHTTP Example.daemon3 "/unknown" none 5).2.Stats.Error
        = Example.proxyCode1000.Stats.Error := by
  decide

/-- C8, amended. For every route table, every configured default status from `100` to
`999` and every request whose URI contains none of the configured path patterns,
`ServeHTTP` answers with the configured default status and with the configured default
body followed by a line feed (status `400` and body `"- not found -"` plus line feed as
long as `SetDefaultResponse` was never called), increments the error counter by one in
`int32` arithmetic, which is exactly one more unless the counter stands at `2^31 - 1`,
and leaves the success counter unchanged. -/
theorem Proxy.ServeHTTP_unmatched (p : Proxy) (get : Daemon) (uri : String)
    (upstream : Option http.Reply) (te : Int)
    (hno : ∀ e ∈ p.routeMap, strings.Contains uri e.2 = false)
    (hlo : 100 ≤ p.defaultStatus) (hhi : p.defaultStatus ≤ 999) :
    (p.ServeHTTP get uri upstream te).1 = some ⟨p.defaultStatus, p.defaultBody ++ "\n"⟩ ∧
      (p.ServeHTTP get uri upstream te).2.Stats.Error = wrap32 (p.Stats.Error + 1) ∧
      (-2147483648 ≤ p.Stats.Error → p.Stats.Error < 2147483647 →
        (p.ServeHTTP get uri upstream te).2.Stats.Error = p.Stats.Error + 1) ∧
      (p.ServeHTTP get uri upstream te).2.Stats.Success = p.Stats.Success ∧
      (∀ (routes : List Route) (s : Gateway.Scheduler),
        (NewProxy routes s).defaultStatus = 400 ∧
          (NewProxy routes s).defaultBody = "- not found -") := by
  have hm : p.matcherFn uri = ("", "") := Proxy.matcherLoop_none uri p.routeMap hno
  have hE : http.Error p.defaultBody p.defaultStatus
      = some ⟨p.defaultStatus, p.defaultBody ++ "\n"⟩ := by
    unfold http.Error http.checkWriteHeaderCode
    simp [hlo, hhi]
  have hS : p.ServeHTTP get uri upstream te
      = (some ⟨p.defaultStatus, p.defaultBody ++ "\n"⟩,
          { p with
            Scheduler := (p.Scheduler.NextBackend get "").2
            Stats := (p.Stats.IncError.2).Record te }) := by
    unfold Proxy.ServeHTTP Proxy.resolve
    simp [hm, hE]
  rw [hS]
  refine ⟨rfl, rfl, fun h1 h2 => ?_, rfl, fun _ _ => ⟨rfl, rfl⟩⟩
  show wrap32 (p.Stats.Error + 1) = _
  exact wrap32_eq _ (by omega) (by omega)

theorem Proxy.ServeHTTP_unmatched_witness :
    (∀ e ∈ Example.proxy.routeMap, strings.Contains "/unknown" e.2 = false) ∧
      100 ≤ Example.proxy.defaultStatus ∧ Example.proxy.defaultStatus ≤ 999 ∧
      (Example.proxy.ServeHTTP Example.daemon3 "/unknown" none 5).1
        = some ⟨Example.proxy.defaultStatus, Example.proxy.defaultBody ++ "\n"⟩ :=
  ⟨by decide, by decide, by decide,
    (Proxy.ServeHTTP_unmatched Example.proxy Example.daemon3 "/unknown" none 5
      (by decide) (by decide) (by decide)).1⟩

end Gateway
